import Mathlib

/-!
Verification of the `morphius` template engine (`src/lib.rs`) against its
natural-language specification.

The whole library is shallowly embedded here.  Strings are `List Char`
(`Str`); the four regexes of the source are modelled by explicit
leftmost-match scanners that reproduce the matching behaviour of the `regex`
crate on the concrete patterns used (lazy bodies take the earliest closing
marker, greedy character classes take maximal runs); the thread-local RNG is
an explicit tape of naturals consumed left to right, where `gen_range` on an
empty range fails (Rust panics are modelled as `Option.none` results
throughout); the external `mexprp` evaluator together with the float
formatting of the result (an external crate plus IEEE-754 `f64` printing) is
an oracle parameter `Cfg`, so every theorem below holds for every behaviour
of that evaluator.  Loops that repeatedly take the next regex match are
written with an explicit fuel argument so that every definition is a plain
structural recursion; the public wrappers instantiate the fuel with
`length + 1`, which is always sufficient because every match consumes at
least one character.
-/

namespace Morphius

/-- Strings of the model: lists of characters. -/
abbrev Str := List Char

/-- Conversion from Lean string literals to model strings. -/
def str (s : String) : Str := s.data

/-- POSIX `[[:alpha:]]` (used by the identifier and declaration regexes). -/
def isAlphaC (c : Char) : Bool :=
  decide ((65 ≤ c.toNat ∧ c.toNat ≤ 90) ∨ (97 ≤ c.toNat ∧ c.toNat ≤ 122))

/-- POSIX `[[:digit:]]` / `[0-9]`. -/
def isDigitC (c : Char) : Bool :=
  decide (48 ≤ c.toNat ∧ c.toNat ≤ 57)

/-- POSIX `[[:word:]]`. -/
def isWordC (c : Char) : Bool :=
  isAlphaC c || isDigitC c || c == '_'

/-- Regex `\s` (the ASCII whitespace characters; the inputs treated in the
concrete theorems below contain no further Unicode whitespace). -/
def isWS (c : Char) : Bool :=
  c == ' ' || c == '\t' || c == '\n' || c == '\r' || c == '\x0b' || c == '\x0c'

/-- Does `s` start with the literal `pat`? -/
def startsWith : Str → Str → Bool
  | [], _ => true
  | _ :: _, [] => false
  | p :: ps, c :: cs => p == c && startsWith ps cs

/-- Split `s` at the first (leftmost) occurrence of the literal `pat`:
returns the part before the occurrence and the part after it. -/
def splitAtFirst (pat : Str) : Str → Option (Str × Str)
  | [] => none
  | c :: cs =>
    if startsWith pat (c :: cs) then some ([], (c :: cs).drop pat.length)
    else
      match splitAtFirst pat cs with
      | none => none
      | some (p, r) => some (c :: p, r)

/-- `itertools::interleave`: alternate elements of the two lists, then append
whatever remains of the longer one. -/
def interleave {α : Type} : List α → List α → List α
  | [], ys => ys
  | x :: xs, [] => x :: xs
  | x :: xs, y :: ys => x :: y :: interleave xs ys

/-- Map a fallible function over a list, failing when any element fails
(models a Rust loop that `unwrap`s / indexes on every element). -/
def mapOption {α β : Type} (f : α → Option β) : List α → Option (List β)
  | [] => some []
  | x :: xs =>
    match f x, mapOption f xs with
    | some b, some bs => some (b :: bs)
    | _, _ => none

/-- Leftmost match of a regex `open(.*?)close` with literal delimiters:
the body is the text between the first occurrence of `op` and the earliest
occurrence of `cl` after it.  Returns `(pre, body, rest)`. -/
def findDelim (op cl : Str) (s : Str) : Option (Str × Str × Str) :=
  match splitAtFirst op s with
  | none => none
  | some (pre, r1) =>
    match splitAtFirst cl r1 with
    | none => none
    | some (body, rest) => some (pre, body, rest)

/-- All successive non-overlapping leftmost matches of `op(.*?)cl`:
returns (captured bodies, the pieces `Regex::split` would produce).
Models both `captures_iter` and `split` for such a pattern. -/
def delimSplitF (op cl : Str) : Nat → Str → List Str × List Str
  | 0, s => ([], [s])
  | fuel + 1, s =>
    match findDelim op cl s with
    | none => ([], [s])
    | some (pre, body, rest) =>
      (body :: (delimSplitF op cl fuel rest).1, pre :: (delimSplitF op cl fuel rest).2)

/-- Fuel-instantiated wrapper for `delimSplitF`. -/
def delimSplit (op cl : Str) (s : Str) : List Str × List Str :=
  delimSplitF op cl (s.length + 1) s

/-- The `|<q>` marker. -/
def openQ : Str := str "|<q>"
/-- The `</q>|` marker. -/
def closeQ : Str := str "</q>|"
/-- The `|<a>` marker. -/
def openA : Str := str "|<a>"
/-- The `</a>|` marker. -/
def closeA : Str := str "</a>|"
/-- The `|<e>` marker. -/
def openE : Str := str "|<e>"
/-- The `</e>|` marker. -/
def closeE : Str := str "</e>|"
/-- The `|<v>` marker. -/
def openV : Str := str "|<v>"
/-- The `]</v>|` tail of the declaration pattern. -/
def closeV : Str := str "]</v>|"

/-- A `Var` of the source: name, numeric type, and bound strings exactly as
captured from the declaration regex. -/
structure Var where
  name : Str
  num_type : Str
  min : Str
  max : Str
deriving DecidableEq, Repr

/-- A component of an expression: a variable name or any other text. -/
inductive ExpComp where
  | Var : Str → ExpComp
  | Other : Str → ExpComp
deriving DecidableEq, Repr

/-- An `Expression` of the source. -/
structure Expression where
  expression : List ExpComp
deriving DecidableEq, Repr

/-- An `Answer` of the source. -/
structure Answer where
  expressions : List Expression
  layout : List Str
deriving DecidableEq, Repr

/-- A `Question` of the source.  The Rust `HashSet<Var>` is modelled as a
duplicate-free list in insertion order (`varsInsert` / `varsRemove` below
implement the set operations with the derived structural equality, exactly
the `PartialEq`/`Eq` the Rust struct derives). -/
structure Question where
  vars : List Var
  expressions : List Expression
  layout : List Str
  answer : Option Answer
deriving DecidableEq, Repr

/-- A `Document` of the source. -/
structure Document where
  questions : List Question
  layout : List Str
deriving DecidableEq, Repr

/-- A generated `Test`. -/
structure Test where
  content : Str
  answers : Str
deriving DecidableEq, Repr

/-- The private `Content` struct of the source. -/
structure Content where
  vars : List Var
  expressions : List Expression
  layout : List Str
deriving DecidableEq, Repr

/-- The private `Num` struct of the source. -/
structure Num where
  whole : Int
  frac : Option Int
deriving DecidableEq, Repr

/-- `HashSet::insert`: add the value unless an equal value is present. -/
def varsInsert (vs : List Var) (v : Var) : List Var :=
  if v ∈ vs then vs else vs ++ [v]

/-- `HashSet::remove`: remove the value equal to `v`. -/
def varsRemove (vs : List Var) (v : Var) : List Var :=
  vs.filter (fun w => w ≠ v)

/-- The default variable assumed for an undeclared name
(`int` with bounds `[0,99]`, src lines 312 and 339). -/
def defaultVar (nm : Str) : Var :=
  ⟨nm, str "int", str "0", str "99"⟩

/-- One leftmost match of the identifier regex `[[:alpha:]][[:word:]]*`:
`(pre, identifier, rest)`.  The identifier starts at the first alphabetic
character and extends over the maximal run of word characters. -/
def scanIdent : Str → Option (Str × Str × Str)
  | [] => none
  | c :: cs =>
    if isAlphaC c then some ([], c :: cs.takeWhile isWordC, cs.dropWhile isWordC)
    else
      match scanIdent cs with
      | none => none
      | some (p, nm, r) => some (c :: p, nm, r)

/-- All identifier matches: returns (the pieces `VAR.split` yields, the
captured identifiers), with one more piece than identifiers. -/
def tokenizeF : Nat → Str → List Str × List Str
  | 0, s => ([s], [])
  | fuel + 1, s =>
    match scanIdent s with
    | none => ([s], [])
    | some (pre, nm, r) =>
      (pre :: (tokenizeF fuel r).1, nm :: (tokenizeF fuel r).2)

/-- Fuel-instantiated wrapper for `tokenizeF`. -/
def tokenize (s : Str) : List Str × List Str := tokenizeF (s.length + 1) s

/-- `process_expression` (src lines 333-343): registers a default `Var` for
every identifier and interleaves the non-identifier pieces with the
identifiers.  The `&mut HashSet` of the source becomes an explicit
argument/result pair. -/
def process_expression (expression : Str) (vars : List Var) :
    List Var × Expression :=
  ((tokenize expression).2.foldl (fun vs nm => varsInsert vs (defaultVar nm)) vars,
   ⟨interleave ((tokenize expression).1.map ExpComp.Other)
      ((tokenize expression).2.map ExpComp.Var)⟩)

/-- The `captures_iter` loop of `get_content`: process the expression bodies
in order, threading the shared variable set through. -/
def processExprList : List Str → List Var → List Var × List Expression
  | [], vs => (vs, [])
  | b :: bs, vs =>
    ((processExprList bs (process_expression b vs).1).1,
     (process_expression b vs).2 :: (processExprList bs (process_expression b vs).1).2)

/-- `get_content` (src lines 323-331): split on `\|<e>(.*?)</e>\|`. -/
def get_content (text : Str) : Content :=
  ⟨(processExprList (delimSplit openE closeE text).1 []).1,
   (processExprList (delimSplit openE closeE text).1 []).2,
   (delimSplit openE closeE text).2⟩

/-- The four capture groups of one variable-declaration match. -/
structure VarDecl where
  name : Str
  kind : Str
  vmin : Str
  vmax : Str
deriving DecidableEq, Repr

/-- The `Var` built from an explicit declaration (src line 313). -/
def declVar (d : VarDecl) : Var := ⟨d.name, d.kind, d.vmin, d.vmax⟩

/-- Scan `-?[0-9]+` at the start of `s` (maximal digit run). -/
def scanInt (s : Str) : Option (Str × Str) :=
  match s with
  | '-' :: r =>
    if r.takeWhile isDigitC = [] then none
    else some ('-' :: r.takeWhile isDigitC, r.dropWhile isDigitC)
  | _ =>
    if s.takeWhile isDigitC = [] then none
    else some (s.takeWhile isDigitC, s.dropWhile isDigitC)

/-- Try to match the body of the declaration regex
`([[:alpha:]][[:word:]]*):\s*([[:alpha:]]*)\s*=\s*\[(-?[0-9]+),(-?[0-9]+)\]</v>\|`
directly after an `|<v>` marker.  All character classes are forced to their
maximal (greedy) runs; the following literal character decides success. -/
def matchVarDeclBody (r : Str) : Option (VarDecl × Str) :=
  match r with
  | [] => none
  | c :: cs =>
    if isAlphaC c then
      match cs.dropWhile isWordC with
      | ':' :: r2 =>
        let r3 := r2.dropWhile isWS
        let kd := r3.takeWhile isAlphaC
        match (r3.dropWhile isAlphaC).dropWhile isWS with
        | '=' :: r5 =>
          match r5.dropWhile isWS with
          | '[' :: r7 =>
            match scanInt r7 with
            | none => none
            | some (mn, r8) =>
              match r8 with
              | ',' :: r9 =>
                match scanInt r9 with
                | none => none
                | some (mx, r10) =>
                  if startsWith closeV r10 then
                    some (⟨c :: cs.takeWhile isWordC, kd, mn, mx⟩,
                          r10.drop closeV.length)
                  else none
              | _ => none
          | _ => none
        | _ => none
      | _ => none
    else none

/-- Leftmost match of the full declaration regex: find successive `|<v>`
markers and take the first one whose tail completes the pattern
(`(pre, decl, rest)`). -/
def findVarDeclF : Nat → Str → Option (Str × VarDecl × Str)
  | 0, _ => none
  | fuel + 1, s =>
    match splitAtFirst openV s with
    | none => none
    | some (pre, r) =>
      match matchVarDeclBody r with
      | some (d, rest) => some (pre, d, rest)
      | none =>
        match findVarDeclF fuel r with
        | none => none
        | some (p2, d, rest) => some (pre ++ openV ++ p2, d, rest)

/-- All declaration matches in order, with the `VAR.split` pieces. -/
def declSplitF : Nat → Str → List VarDecl × List Str
  | 0, s => ([], [s])
  | fuel + 1, s =>
    match findVarDeclF (s.length + 1) s with
    | none => ([], [s])
    | some (pre, d, rest) =>
      (d :: (declSplitF fuel rest).1, pre :: (declSplitF fuel rest).2)

/-- Fuel-instantiated wrapper for `declSplitF`. -/
def declSplit (s : Str) : List VarDecl × List Str :=
  declSplitF (s.length + 1) s

/-- `VAR.split(question).join("")` of src line 310. -/
def declStrip (s : Str) : Str := (declSplit s).2.flatten

/-- `process_question` (src lines 306-316): strip the declarations, scan the
remaining body, then for every declaration remove the default `Var` of that
name and insert the declared one. -/
def process_question (question : Str) (answer : Option Answer) : Question :=
  let content := get_content (declStrip question)
  let vars := (declSplit question).1.foldl
    (fun vs d => varsInsert (varsRemove vs (defaultVar d.name)) (declVar d))
    content.vars
  ⟨vars, content.expressions, content.layout, answer⟩

/-- `process_answer` (src lines 318-321): like a question body but the
variables registered by its expressions are discarded. -/
def process_answer (answer : Str) : Answer :=
  let content := get_content answer
  ⟨content.expressions, content.layout⟩

/-- `process` (src lines 169-176): split on `(?s)\|<q>(.*?)</q>\|`. -/
def process (input : Str) : Document :=
  ⟨(delimSplit openQ closeQ input).1.map (fun b => process_question b none),
   (delimSplit openQ closeQ input).2⟩

/-- The `\s*\|<a>(.*?)</a>\|` tail of the combined question/answer pattern:
after `</q>|`, the whitespace run is forced (no whitespace character can
start the literal `|<a>`), then the answer body is lazy.  Returns
`(whitespace, answer body, rest)`. -/
def qaTail (t : Str) : Option (Str × Str × Str) :=
  if startsWith openA (t.dropWhile isWS) then
    match splitAtFirst closeA ((t.dropWhile isWS).drop openA.length) with
    | none => none
    | some (b2, rest) => some (t.takeWhile isWS, b2, rest)
  else none

/-- Backtracking search for the lazy question body of the combined pattern:
try each successive `</q>|` occurrence and keep the first one whose tail
matches `\s*\|<a>(.*?)</a>\|`.  Returns `(body1, ws, body2, rest)`. -/
def findBody1F : Nat → Str → Option (Str × Str × Str × Str)
  | 0, _ => none
  | fuel + 1, r =>
    match splitAtFirst closeQ r with
    | none => none
    | some (b, t) =>
      match qaTail t with
      | some (ws, b2, rest) => some (b, ws, b2, rest)
      | none =>
        match findBody1F fuel t with
        | none => none
        | some (b1, ws, b2, rest) => some (b ++ closeQ ++ b1, ws, b2, rest)

/-- Leftmost match of `(?s)\|<q>(.*?)</q>\|\s*\|<a>(.*?)</a>\|`
(`(pre, body1, ws, body2, rest)`).  The match, when it exists, always starts
at the first `|<q>` occurrence: any completion from a later occurrence is
also a completion from the first one. -/
def findQA (s : Str) : Option (Str × Str × Str × Str × Str) :=
  match splitAtFirst openQ s with
  | none => none
  | some (pre, r1) =>
    match findBody1F (r1.length + 1) r1 with
    | none => none
    | some (b1, ws, b2, rest) => some (pre, b1, ws, b2, rest)

/-- All matches of the combined pattern, with the split pieces.  The matched
whitespace is carried along (third component) only so that reassembly can be
stated; the source keeps just the two capture groups. -/
def qaSplitF : Nat → Str → List (Str × Str × Str) × List Str
  | 0, s => ([], [s])
  | fuel + 1, s =>
    match findQA s with
    | none => ([], [s])
    | some (pre, b1, ws, b2, rest) =>
      ((b1, ws, b2) :: (qaSplitF fuel rest).1, pre :: (qaSplitF fuel rest).2)

/-- Fuel-instantiated wrapper for `qaSplitF`. -/
def qaSplit (s : Str) : List (Str × Str × Str) × List Str :=
  qaSplitF (s.length + 1) s

/-- `process_with_answers` (src lines 190-200). -/
def process_with_answers (input : Str) : Document :=
  ⟨(qaSplit input).1.map
     (fun p => process_question p.1 (some (process_answer p.2.2))),
   (qaSplit input).2⟩

/-- The randomness source: `rand::thread_rng()` is modelled as an infinite
tape of naturals, consumed left to right (one cell per `gen_range` call). -/
abbrev Tape := Nat → Nat

/-- `rng.gen_range(lo..hi)` on integers: fails (Rust panics) on an empty
range, otherwise returns a value of `[lo, hi)` determined by the next tape
cell, together with the next tape position.  Every value of the range is hit
by some tape. -/
def genRangeInt (lo hi : Int) (t : Tape) (i : Nat) : Option (Int × Nat) :=
  if lo < hi then some (lo + (t i : Int) % (hi - lo), i + 1) else none

/-- `rng.gen_range(0..n)` on usize. -/
def genRangeNat (n : Nat) (t : Tape) (i : Nat) : Option (Nat × Nat) :=
  if 0 < n then some (t i % n, i + 1) else none

/-- Rust's `str::parse::<i64>`: optional sign, at least one digit, and the
value must fit in an `i64`. -/
def parseI64 (s : Str) : Option Int :=
  match s with
  | '-' :: r =>
    if r ≠ [] ∧ r.all isDigitC then
      if (Nat.ofDigits 10 (r.map (fun c => c.toNat - 48)).reverse : Int) ≤ 2 ^ 63 then
        some (-(Nat.ofDigits 10 (r.map (fun c => c.toNat - 48)).reverse : Int))
      else none
    else none
  | '+' :: r =>
    if r ≠ [] ∧ r.all isDigitC then
      if (Nat.ofDigits 10 (r.map (fun c => c.toNat - 48)).reverse : Int) < 2 ^ 63 then
        some (Nat.ofDigits 10 (r.map (fun c => c.toNat - 48)).reverse : Int)
      else none
    else none
  | _ =>
    if s ≠ [] ∧ s.all isDigitC then
      if (Nat.ofDigits 10 (s.map (fun c => c.toNat - 48)).reverse : Int) < 2 ^ 63 then
        some (Nat.ofDigits 10 (s.map (fun c => c.toNat - 48)).reverse : Int)
      else none
    else none

/-- The external behaviour generation depends on: `evalFmt` is the composite
of `mexprp::eval::<f64>` and the result formatting of
`gen_expression_text` (src lines 292-303; `none` covers the `unwrap` on an
evaluation error and the `panic!` on a `Multiple` answer), and `fmtReal` is
`(whole as f64 + frac as f64 / 1000).to_string()` (src line 285).  Both are
IEEE-754 `f64` computations of external code, so they are oracle parameters:
every theorem below holds for every choice of `Cfg`. -/
structure Cfg where
  evalFmt : Str → Option Str
  fmtReal : Int → Int → Str

/-- The per-question scope `HashMap<&str, Num>`: an association list whose
keys are unique (insert replaces). -/
abbrev Scope := List (Str × Num)

/-- `HashMap::insert` (replace any entry with the same key). -/
def scopeInsert (sc : Scope) (k : Str) (v : Num) : Scope :=
  sc.filter (fun p => p.1 ≠ k) ++ [(k, v)]

/-- `HashMap::get`. -/
def scopeGet (sc : Scope) (k : Str) : Option Num :=
  (sc.find? (fun p => p.1 == k)).map (fun p => p.2)

/-- Draw the value of one variable (src lines 257-265): `int` gives a whole
number of `[min, max]`; any other type string takes the `real` branch, a
whole part of `[min, max)` and a thousandths part of `[0, 1000)`.  The
`unwrap`s on `min.parse::<i64>()` / `max.parse::<i64>()` are the `Option`
binds. -/
def drawNum (v : Var) (t : Tape) (i : Nat) : Option (Num × Nat) :=
  match parseI64 v.min, parseI64 v.max with
  | some mn, some mx =>
    if v.num_type = str "int" then
      match genRangeInt mn (mx + 1) t i with
      | none => none
      | some (w, i1) => some (⟨w, none⟩, i1)
    else
      match genRangeInt mn mx t i with
      | none => none
      | some (w, i1) =>
        match genRangeInt 0 1000 t i1 with
        | none => none
        | some (f, i2) => some (⟨w, some f⟩, i2)
  | _, _ => none

/-- The scope-building loop of `gen_question_text`: iterate the question's
variables in order, drawing one value each. -/
def buildScopeAux (sc : Scope) : List Var → Tape → Nat → Option (Scope × Nat)
  | [], _, i => some (sc, i)
  | v :: vs, t, i =>
    match drawNum v t i with
    | none => none
    | some (n, i1) => buildScopeAux (scopeInsert sc v.name n) vs t i1

/-- Build the scope of a question from the empty map. -/
def buildScope (vars : List Var) (t : Tape) (i : Nat) : Option (Scope × Nat) :=
  buildScopeAux [] vars t i

/-- Render one expression component: a variable name is looked up in the
scope (`unwrap` on a missing name is the `none` case) and printed — an `int`
as `i64::to_string`, a `real` through the `fmtReal` oracle; other text passes
through. -/
def compText (cfg : Cfg) (sc : Scope) : ExpComp → Option Str
  | ExpComp.Var nm =>
    match scopeGet sc nm with
    | none => none
    | some n =>
      match n.frac with
      | none => some (str (toString n.whole))
      | some f => some (cfg.fmtReal n.whole f)
  | ExpComp.Other tx => some tx

/-- `gen_expression_text` (src lines 278-304): substitute the scope values
into the components, concatenate, and hand the arithmetic string to the
evaluator/formatter oracle. -/
def gen_expression_text (cfg : Cfg) (e : Expression) (sc : Scope) : Option Str :=
  match mapOption (compText cfg sc) e.expression with
  | none => none
  | some parts => cfg.evalFmt parts.flatten

/-- Render a layout/expression pair against a scope:
`layout.iter().interleave(rendered).join("")` (src lines 268 and 271). -/
def renderText (cfg : Cfg) (sc : Scope) (layout : List Str)
    (es : List Expression) : Option Str :=
  match mapOption (fun e => gen_expression_text cfg e sc) es with
  | none => none
  | some rs => some (interleave layout rs).flatten

/-- `gen_question_text` (src lines 254-276): draw one scope, render the
question's content with it, and render the answer — when present — with the
very same scope; without an answer the text is `"No Answers Provided"`. -/
def gen_question_text (cfg : Cfg) (q : Question) (t : Tape) (i : Nat) :
    Option ((Str × Str) × Nat) :=
  match buildScope q.vars t i with
  | none => none
  | some (sc, i1) =>
    match renderText cfg sc q.layout q.expressions with
    | none => none
    | some content =>
      match
        (match q.answer with
         | some a => renderText cfg sc a.layout a.expressions
         | none => some (str "No Answers Provided")) with
      | none => none
      | some ans => some ((content, ans), i1)

/-- The `Some(ord)` loop of `gen_form`: render the questions selected by the
index list, in that order (`doc.questions[*i]` panics — `none` — on an
out-of-range index). -/
def renderByIdx (cfg : Cfg) (doc : Document) :
    List Nat → Tape → Nat → Option ((List Str × List Str) × Nat)
  | [], _, i => some (([], []), i)
  | j :: rest, t, i =>
    match doc.questions.get? j with
    | none => none
    | some q =>
      match gen_question_text cfg q t i with
      | none => none
      | some ((c, a), i1) =>
        match renderByIdx cfg doc rest t i1 with
        | none => none
        | some ((cs, as'), i2) => some ((c :: cs, a :: as'), i2)

/-- The `None` loop of `gen_form`: render every question in document order. -/
def renderAll (cfg : Cfg) : List Question → Tape → Nat →
    Option ((List Str × List Str) × Nat)
  | [], _, i => some (([], []), i)
  | q :: qs, t, i =>
    match gen_question_text cfg q t i with
    | none => none
    | some ((c, a), i1) =>
      match renderAll cfg qs t i1 with
      | none => none
      | some ((cs, as'), i2) => some ((c :: cs, a :: as'), i2)

/-- `gen_form` (src lines 231-252): interleave the document layout with the
rendered question texts and, in parallel, with the rendered answer texts. -/
def gen_form (cfg : Cfg) (doc : Document) (order : Option (List Nat))
    (t : Tape) (i : Nat) : Option (Test × Nat) :=
  match
    (match order with
     | some ord => renderByIdx cfg doc ord t i
     | none => renderAll cfg doc.questions t i) with
  | none => none
  | some ((qs, as'), i1) =>
    some (⟨(interleave doc.layout qs).flatten,
           (interleave doc.layout as').flatten⟩, i1)

/-- Every choice of one element of a list together with the remaining
elements in order, in position order. -/
def picks {α : Type} : List α → List (α × List α)
  | [] => []
  | x :: xs => (x, xs) :: (picks xs).map (fun p => (p.1, x :: p.2))

/-- `itertools::permutations(k)`: all length-`k` ordered arrangements of
distinct elements, in lexicographic order of the source positions. -/
def permsK {α : Type} : List α → Nat → List (List α)
  | _, 0 => [[]]
  | xs, k + 1 =>
    ((picks xs).map (fun p => (permsK p.2 k).map (fun l => p.1 :: l))).flatten

/-- The `Some(num_qs)` result loop of `generate`: per requested test, draw an
index of `[0, np)` — note `np` is `min(num_qs, total)`, not the length of the
permutation list — index into the permutation list, and build the form. -/
def genLoopSome (cfg : Cfg) (doc : Document) (np : Nat)
    (perms : List (List Nat)) : Nat → Tape → Nat → Option (List Test × Nat)
  | 0, _, i => some ([], i)
  | n + 1, t, i =>
    match genRangeNat np t i with
    | none => none
    | some (idx, i1) =>
      match perms.get? idx with
      | none => none
      | some ord =>
        match gen_form cfg doc (some ord) t i1 with
        | none => none
        | some (test, i2) =>
          match genLoopSome cfg doc np perms n t i2 with
          | none => none
          | some (ts, i3) => some (test :: ts, i3)

/-- The `None` result loop of `generate`. -/
def genLoopNone (cfg : Cfg) (doc : Document) :
    Nat → Tape → Nat → Option (List Test × Nat)
  | 0, _, i => some ([], i)
  | n + 1, t, i =>
    match gen_form cfg doc none t i with
    | none => none
    | some (test, i1) =>
      match genLoopNone cfg doc n t i1 with
      | none => none
      | some (ts, i2) => some (test :: ts, i2)

/-- `generate` (src lines 217-229). -/
def generate (cfg : Cfg) (doc : Document) (num_results : Nat)
    (num_questions : Option Nat) (t : Tape) (i : Nat) :
    Option (List Test × Nat) :=
  match num_questions with
  | some num_qs =>
    let num_permutations := Nat.min num_qs doc.questions.length
    let permutations := permsK (List.range doc.questions.length) num_permutations
    genLoopSome cfg doc num_permutations permutations num_results t i
  | none => genLoopNone cfg doc num_results t i

/-- The source text a component contributes before substitution. -/
def compSource : ExpComp → Str
  | ExpComp.Var nm => nm
  | ExpComp.Other tx => tx

/-- Strict literal/variable alternation check; the flag tells whether a
literal (`true`) or a variable (`false`) is expected next. -/
def alternates : Bool → List ExpComp → Bool
  | _, [] => true
  | true, ExpComp.Other _ :: rest => alternates false rest
  | false, ExpComp.Var _ :: rest => alternates true rest
  | _, _ => false

/-- Every question of the document renders successfully at every tape
position (no missing scope entry, no unparsable bound, no empty random
range, no evaluator failure). -/
def RenderOK (cfg : Cfg) (doc : Document) (t : Tape) : Prop :=
  ∀ q ∈ doc.questions, ∀ j : Nat, ∃ r, gen_question_text cfg q t j = some r

/-- An oracle whose evaluator always fails; the concrete documents it is
used with below contain no expressions, so it is never consulted. -/
def cfg0 : Cfg := ⟨fun _ => none, fun _ _ => []⟩

/-- An oracle whose evaluator renders every arithmetic string as `"7"`. -/
def cfg7 : Cfg := ⟨fun _ => some (str "7"), fun _ _ => []⟩

/-- The all-zero random tape. -/
def t0 : Tape := fun _ => 0

/-- The `FORM2` template of the source's tests. -/
def form2 : Str := str "|<q>1</q>|Middle 1|<q>2</q>|Middle 2|<q>3</q>|"

/-- The `FORM3` template of the source's tests. -/
def form3 : Str := str "|<q>1</q>||<q>2</q>||<q>3</q>|"

/-- A single-question template. -/
def formOne : Str := str "|<q>1</q>|"

/-- The question/answer template of `test_answer_generated_correctly`. -/
def formQA : Str := str "|<q>|<e>a</e>|</q>||<a>|<e>a</e>|</a>|"

/-- An unanswered question followed by an answered one: the combined
pattern's lazy body absorbs the unanswered question's text. -/
def formAbsorb : Str := str "|<q>x</q>|y|<q>z</q>| |<a>w</a>|"

/-- A question with no answer block anywhere after it. -/
def formOrphan : Str := str "before |<q>orphan</q>| after"

/-- A question declaring the same name twice with different bounds. -/
def formDupDecl : Str :=
  str "|<q>|<v>a: int = [1,2]</v>||<v>a: int = [3,4]</v>||<e>a</e>|</q>|"

/-- A question body with one declaration and one expression. -/
def formDeclBody : Str := str "|<v>a: real = [1,5]</v>||<e>a+b</e>|"

/-- A template whose answer references a variable the question never
mentions. -/
def formAnswerVar : Str := str "|<q>q</q>||<a>|<e>b</e>|</a>|"

/-- A small template with layout, a question, and an answered expression. -/
def formMixed : Str := str "A|<q>u</q>| |<a>|<e>v</e>|</a>|B"

/-- A question using two undeclared variables inside an expression. -/
def formVarUse : Str := str "|<q>w1|<e>x+y</e>|w2</q>|"

@[simp] theorem interleave_nil_left {α : Type} (ys : List α) :
    interleave [] ys = ys := rfl

@[simp] theorem interleave_cons_nil {α : Type} (x : α) (xs : List α) :
    interleave (x :: xs) [] = x :: xs := rfl

@[simp] theorem interleave_cons_cons {α : Type} (x y : α) (xs ys : List α) :
    interleave (x :: xs) (y :: ys) = x :: y :: interleave xs ys := rfl

theorem startsWith_append :
    ∀ p s : Str, startsWith p s = true → s = p ++ s.drop p.length := by
  intro p
  induction p with
  | nil => intro s _; simp
  | cons a ps ih =>
    intro s h
    cases s with
    | nil => simp [startsWith] at h
    | cons c cs =>
      simp only [startsWith, Bool.and_eq_true, beq_iff_eq] at h
      obtain ⟨rfl, h2⟩ := h
      simp only [List.length_cons, List.drop_succ_cons, List.cons_append]
      exact congrArg _ (ih cs h2)

theorem splitAtFirst_spec (pat : Str) :
    ∀ s p r, splitAtFirst pat s = some (p, r) → s = p ++ pat ++ r := by
  intro s
  induction s with
  | nil => intro p r h; simp [splitAtFirst] at h
  | cons c cs ih =>
    intro p r h
    unfold splitAtFirst at h
    split at h
    · rename_i hsw
      simp only [Option.some.injEq, Prod.mk.injEq] at h
      obtain ⟨rfl, rfl⟩ := h
      simpa using startsWith_append pat (c :: cs) hsw
    · rename_i hsw
      split at h
      · exact absurd h (by simp)
      · rename_i p' r' heq
        simp only [Option.some.injEq, Prod.mk.injEq] at h
        obtain ⟨h1, h2⟩ := h
        rw [← h1, ← h2]
        simpa using ih p' r' heq

theorem splitAtFirst_le (pat : Str) (s p r : Str)
    (h : splitAtFirst pat s = some (p, r)) : r.length ≤ s.length := by
  have hs := splitAtFirst_spec pat s p r h
  have : s.length = p.length + (pat.length + r.length) := by
    rw [hs]; simp [List.length_append]
  omega

theorem splitAtFirst_lt (pat : Str) (hp : pat ≠ []) (s p r : Str)
    (h : splitAtFirst pat s = some (p, r)) : r.length < s.length := by
  have hs := splitAtFirst_spec pat s p r h
  have h1 : s.length = p.length + (pat.length + r.length) := by
    rw [hs]; simp [List.length_append]
  have h2 : 0 < pat.length := List.length_pos.mpr hp
  omega

theorem findDelim_spec (op cl s pre body rest : Str)
    (h : findDelim op cl s = some (pre, body, rest)) :
    s = pre ++ op ++ body ++ cl ++ rest := by
  unfold findDelim at h
  split at h
  · exact absurd h (by simp)
  · rename_i pre' r1 heq1
    split at h
    · exact absurd h (by simp)
    · rename_i body' rest' heq2
      simp only [Option.some.injEq, Prod.mk.injEq] at h
      obtain ⟨rfl, rfl, rfl⟩ := h
      have e1 := splitAtFirst_spec op s _ _ heq1
      have e2 := splitAtFirst_spec cl r1 _ _ heq2
      rw [e1, e2]
      simp [List.append_assoc]

theorem findDelim_lt (op cl s pre body rest : Str) (hop : op ≠ [])
    (h : findDelim op cl s = some (pre, body, rest)) :
    rest.length < s.length := by
  unfold findDelim at h
  split at h
  · exact absurd h (by simp)
  · rename_i pre' r1 heq1
    split at h
    · exact absurd h (by simp)
    · rename_i body' rest' heq2
      simp only [Option.some.injEq, Prod.mk.injEq] at h
      obtain ⟨rfl, rfl, rfl⟩ := h
      have h1 := splitAtFirst_lt op hop s _ _ heq1
      have h2 := splitAtFirst_le cl r1 _ _ heq2
      omega

theorem delimSplitF_count (op cl : Str) :
    ∀ fuel s, (delimSplitF op cl fuel s).2.length
      = (delimSplitF op cl fuel s).1.length + 1 := by
  intro fuel
  induction fuel with
  | zero => intro s; simp [delimSplitF]
  | succ n ih =>
    intro s
    unfold delimSplitF
    split
    · simp
    · simp [ih]

theorem delimSplitF_flatten (op cl : Str) :
    ∀ fuel s,
      (interleave (delimSplitF op cl fuel s).2
        ((delimSplitF op cl fuel s).1.map (fun b => op ++ b ++ cl))).flatten
      = s := by
  intro fuel
  induction fuel with
  | zero => intro s; simp [delimSplitF]
  | succ n ih =>
    intro s
    unfold delimSplitF
    split
    · simp
    · rename_i pre body rest heq
      have hs := findDelim_spec op cl s pre body rest heq
      simp only [List.map_cons, interleave_cons_cons, List.flatten_cons]
      rw [ih rest, hs]
      simp [List.append_assoc]

theorem qaTail_spec (tx ws b2 rest : Str) (h : qaTail tx = some (ws, b2, rest)) :
    tx = ws ++ openA ++ b2 ++ closeA ++ rest := by
  unfold qaTail at h
  split at h
  · rename_i hsw
    split at h
    · exact absurd h (by simp)
    · rename_i b2' rest' heq
      simp only [Option.some.injEq, Prod.mk.injEq] at h
      obtain ⟨hw, hb, hr⟩ := h
      rw [← hw, ← hb, ← hr]
      have e1 := startsWith_append openA (tx.dropWhile isWS) hsw
      have e2 := splitAtFirst_spec closeA ((tx.dropWhile isWS).drop openA.length)
        _ _ heq
      calc tx = tx.takeWhile isWS ++ tx.dropWhile isWS :=
            (List.takeWhile_append_dropWhile isWS tx).symm
        _ = tx.takeWhile isWS
              ++ (openA ++ ((tx.dropWhile isWS).drop openA.length)) := by rw [← e1]
        _ = tx.takeWhile isWS ++ (openA ++ (b2' ++ closeA ++ rest')) := by rw [e2]
        _ = tx.takeWhile isWS ++ openA ++ b2' ++ closeA ++ rest' := by
              simp [List.append_assoc]
  · exact absurd h (by simp)

theorem findBody1F_spec :
    ∀ fuel r b1 ws b2 rest, findBody1F fuel r = some (b1, ws, b2, rest) →
      r = b1 ++ closeQ ++ ws ++ openA ++ b2 ++ closeA ++ rest := by
  intro fuel
  induction fuel with
  | zero => intro r b1 ws b2 rest h; simp [findBody1F] at h
  | succ n ih =>
    intro r b1 ws b2 rest h
    unfold findBody1F at h
    split at h
    · exact absurd h (by simp)
    · rename_i b t heq
      have e1 := splitAtFirst_spec closeQ r _ _ heq
      split at h
      · rename_i ws' b2' rest' heqt
        simp only [Option.some.injEq, Prod.mk.injEq] at h
        obtain ⟨h1, h2, h3, h4⟩ := h
        rw [← h1, ← h2, ← h3, ← h4]
        have e2 := qaTail_spec t ws' b2' rest' heqt
        rw [e1, e2]
        simp [List.append_assoc]
      · split at h
        · exact absurd h (by simp)
        · rename_i b1' ws' b2' rest' heq2
          simp only [Option.some.injEq, Prod.mk.injEq] at h
          obtain ⟨h1, h2, h3, h4⟩ := h
          rw [← h1, ← h2, ← h3, ← h4]
          have e2 := ih t b1' ws' b2' rest' heq2
          rw [e1, e2]
          simp [List.append_assoc]

theorem findQA_spec (s pre b1 ws b2 rest : Str)
    (h : findQA s = some (pre, b1, ws, b2, rest)) :
    s = pre ++ openQ ++ b1 ++ closeQ ++ ws ++ openA ++ b2 ++ closeA ++ rest := by
  unfold findQA at h
  split at h
  · exact absurd h (by simp)
  · rename_i pre' r1 heq1
    split at h
    · exact absurd h (by simp)
    · rename_i b1' ws' b2' rest' heq2
      simp only [Option.some.injEq, Prod.mk.injEq] at h
      obtain ⟨h1, h2, h3, h4, h5⟩ := h
      rw [← h1, ← h2, ← h3, ← h4, ← h5]
      have e1 := splitAtFirst_spec openQ s _ _ heq1
      have e2 := findBody1F_spec (r1.length + 1) r1 _ _ _ _ heq2
      rw [e1, e2]
      simp [List.append_assoc]

theorem qaSplitF_count :
    ∀ fuel s, (qaSplitF fuel s).2.length = (qaSplitF fuel s).1.length + 1 := by
  intro fuel
  induction fuel with
  | zero => intro s; simp [qaSplitF]
  | succ n ih =>
    intro s
    unfold qaSplitF
    split
    · simp
    · simp [ih]

theorem qaSplitF_flatten :
    ∀ fuel s,
      (interleave (qaSplitF fuel s).2
        ((qaSplitF fuel s).1.map
          (fun p => openQ ++ p.1 ++ closeQ ++ p.2.1 ++ openA ++ p.2.2 ++ closeA))).flatten
      = s := by
  intro fuel
  induction fuel with
  | zero => intro s; simp [qaSplitF]
  | succ n ih =>
    intro s
    unfold qaSplitF
    split
    · simp
    · rename_i pre b1 ws b2 rest heq
      have hs := findQA_spec s pre b1 ws b2 rest heq
      simp only [List.map_cons, interleave_cons_cons, List.flatten_cons]
      rw [ih rest, hs]
      simp [List.append_assoc]

theorem qaSplitF_of_no_answer_marker :
    ∀ fuel s, ¬ List.IsInfix openA s → qaSplitF fuel s = ([], [s]) := by
  intro fuel
  induction fuel with
  | zero => intro s _; rfl
  | succ n ih =>
    intro s hno
    unfold qaSplitF
    split
    · rfl
    · rename_i pre b1 ws b2 rest heq
      exact absurd
        ⟨pre ++ openQ ++ b1 ++ closeQ ++ ws, b2 ++ closeA ++ rest, by
          rw [findQA_spec s pre b1 ws b2 rest heq]
          simp [List.append_assoc]⟩ hno

theorem scanIdent_spec :
    ∀ s p nm r, scanIdent s = some (p, nm, r) → s = p ++ nm ++ r ∧ nm ≠ [] := by
  intro s
  induction s with
  | nil => intro p nm r h; simp [scanIdent] at h
  | cons c cs ih =>
    intro p nm r h
    unfold scanIdent at h
    split at h
    · simp only [Option.some.injEq, Prod.mk.injEq] at h
      obtain ⟨h1, h2, h3⟩ := h
      rw [← h1, ← h2, ← h3]
      refine ⟨?_, by simp⟩
      simp [List.takeWhile_append_dropWhile]
    · split at h
      · exact absurd h (by simp)
      · rename_i p' nm' r' heq
        simp only [Option.some.injEq, Prod.mk.injEq] at h
        obtain ⟨h1, h2, h3⟩ := h
        rw [← h1, ← h2, ← h3]
        obtain ⟨e, hne⟩ := ih p' nm' r' heq
        exact ⟨by simpa using congrArg (c :: ·) e, hne⟩

theorem tokenizeF_count :
    ∀ fuel s, (tokenizeF fuel s).1.length = (tokenizeF fuel s).2.length + 1 := by
  intro fuel
  induction fuel with
  | zero => intro s; simp [tokenizeF]
  | succ n ih =>
    intro s
    unfold tokenizeF
    split
    · simp
    · simp [ih]

theorem tokenizeF_flatten :
    ∀ fuel s, (interleave (tokenizeF fuel s).1 (tokenizeF fuel s).2).flatten = s := by
  intro fuel
  induction fuel with
  | zero => intro s; simp [tokenizeF]
  | succ n ih =>
    intro s
    unfold tokenizeF
    split
    · simp
    · rename_i pre nm r heq
      obtain ⟨e, _⟩ := scanIdent_spec s pre nm r heq
      simp only [interleave_cons_cons, List.flatten_cons]
      rw [ih r, e]
      simp [List.append_assoc]

theorem map_interleave {α β : Type} (f : α → β) :
    ∀ xs ys : List α, (interleave xs ys).map f = interleave (xs.map f) (ys.map f) := by
  intro xs
  induction xs with
  | nil => intro ys; simp
  | cons x xs ih =>
    intro ys
    cases ys with
    | nil => simp
    | cons y ys => simp [ih ys]

theorem mem_interleave {α : Type} (a : α) :
    ∀ xs ys : List α, a ∈ interleave xs ys → a ∈ xs ∨ a ∈ ys := by
  intro xs
  induction xs with
  | nil => intro ys h; exact Or.inr h
  | cons x xs ih =>
    intro ys h
    cases ys with
    | nil => exact Or.inl h
    | cons y ys =>
      simp only [interleave_cons_cons, List.mem_cons] at h
      rcases h with h | h | h
      · exact Or.inl (by simp [h])
      · exact Or.inr (by simp [h])
      · rcases ih ys h with h' | h'
        · exact Or.inl (by simp [h'])
        · exact Or.inr (by simp [h'])

theorem process_expression_source (e : Str) (vs : List Var) :
    ((process_expression e vs).2.expression.map compSource).flatten = e := by
  unfold process_expression
  simp only
  rw [map_interleave]
  simp only [List.map_map]
  have h1 : (compSource ∘ ExpComp.Other) = id := rfl
  have h2 : (compSource ∘ ExpComp.Var) = id := rfl
  rw [h1, h2, List.map_id, List.map_id]
  exact tokenizeF_flatten _ e

theorem alternates_interleave :
    ∀ (ns os : List Str), os.length = ns.length + 1 →
      alternates true
        (interleave (os.map ExpComp.Other) (ns.map ExpComp.Var)) = true := by
  intro ns
  induction ns with
  | nil =>
    intro os h
    match os with
    | [o] => simp [alternates]
  | cons n ns ih =>
    intro os h
    match os with
    | o :: os' =>
      simp only [List.map_cons, interleave_cons_cons]
      simp only [alternates]
      exact ih os' (by simpa using h)

theorem process_expression_alternates (e : Str) (vs : List Var) :
    alternates true ((process_expression e vs).2.expression) = true := by
  unfold process_expression
  simp only
  exact alternates_interleave _ _ (tokenizeF_count _ e)

theorem processExprList_sources :
    ∀ (bs : List Str) (vs : List Var),
      ((processExprList bs vs).2).map
        (fun ex => (ex.expression.map compSource).flatten) = bs := by
  intro bs
  induction bs with
  | nil => intro vs; simp [processExprList]
  | cons b bs ih =>
    intro vs
    simp [processExprList, process_expression_source, ih]

theorem processExprList_length :
    ∀ (bs : List Str) (vs : List Var),
      ((processExprList bs vs).2).length = bs.length := by
  intro bs
  induction bs with
  | nil => intro vs; simp [processExprList]
  | cons b bs ih => intro vs; simp [processExprList, ih]

theorem get_content_count (text : Str) :
    (get_content text).layout.length = (get_content text).expressions.length + 1 := by
  unfold get_content delimSplit
  simp only
  rw [processExprList_length]
  exact delimSplitF_count openE closeE _ text

theorem get_content_replay (text : Str) :
    (interleave (get_content text).layout
      ((get_content text).expressions.map
        (fun ex => openE ++ (ex.expression.map compSource).flatten ++ closeE))).flatten
    = text := by
  unfold get_content delimSplit
  simp only
  have hmm : ∀ es : List Expression,
      es.map (fun ex => openE ++ (ex.expression.map compSource).flatten ++ closeE)
      = (es.map (fun ex => (ex.expression.map compSource).flatten)).map
          (fun b => openE ++ b ++ closeE) := by
    intro es
    rw [List.map_map]
    rfl
  rw [hmm, processExprList_sources]
  exact delimSplitF_flatten openE closeE _ text

theorem process_question_count (body : Str) (ans : Option Answer) :
    (process_question body ans).layout.length
      = (process_question body ans).expressions.length + 1 := by
  unfold process_question
  simp only
  exact get_content_count _

theorem process_question_answer (body : Str) (ans : Option Answer) :
    (process_question body ans).answer = ans := rfl

theorem process_answer_count (b : Str) :
    (process_answer b).layout.length = (process_answer b).expressions.length + 1 := by
  unfold process_answer
  simp only
  exact get_content_count b

theorem process_question_replay (body : Str) (ans : Option Answer) :
    (interleave (process_question body ans).layout
      ((process_question body ans).expressions.map
        (fun ex => openE ++ (ex.expression.map compSource).flatten ++ closeE))).flatten
    = declStrip body := by
  unfold process_question
  simp only
  exact get_content_replay (declStrip body)

/-- C4: for every input string, the document returned by `process` and by
`process_with_answers` has exactly one more layout segment than questions;
interleaving the layout segments of `process` with the matched question
regions reproduces the input text exactly, so `layout[i]` precedes question
`i` in the original text and the last layout segment is the trailing text;
and inside every parsed question and answer,
`len(layout) = len(expressions) + 1`. -/
theorem c4_layout_invariants : ∀ s : Str,
    (process s).layout.length = (process s).questions.length + 1
    ∧ (process_with_answers s).layout.length
        = (process_with_answers s).questions.length + 1
    ∧ (∃ bodies : List Str,
        (process s).questions = bodies.map (fun b => process_question b none)
        ∧ (interleave (process s).layout
            (bodies.map (fun b => openQ ++ b ++ closeQ))).flatten = s)
    ∧ ∀ q, (q ∈ (process s).questions ∨ q ∈ (process_with_answers s).questions) →
        q.layout.length = q.expressions.length + 1
        ∧ ∀ a, q.answer = some a → a.layout.length = a.expressions.length + 1 := by
  intro s
  refine ⟨?_, ?_, ?_, ?_⟩
  · unfold process delimSplit
    simp only [List.length_map]
    exact delimSplitF_count openQ closeQ _ s
  · unfold process_with_answers qaSplit
    simp only [List.length_map]
    exact qaSplitF_count _ s
  · refine ⟨(delimSplit openQ closeQ s).1, rfl, ?_⟩
    unfold delimSplit
    exact delimSplitF_flatten openQ closeQ _ s
  · intro q hq
    rcases hq with hq | hq
    · unfold process at hq
      simp only [List.mem_map] at hq
      obtain ⟨b, _, hb⟩ := hq
      refine ⟨by rw [← hb]; exact process_question_count b none, ?_⟩
      intro a ha
      rw [← hb, process_question_answer] at ha
      exact absurd ha (by simp)
    · unfold process_with_answers at hq
      simp only [List.mem_map] at hq
      obtain ⟨p, _, hb⟩ := hq
      refine ⟨by rw [← hb]; exact process_question_count _ _, ?_⟩
      intro a ha
      rw [← hb, process_question_answer] at ha
      rw [← Option.some.inj ha]
      exact process_answer_count p.2.2

/-- Witness for C4: the invariants instantiated at a concrete template with
one answered question. -/
theorem c4_witness :
    (process formMixed).layout.length = (process formMixed).questions.length + 1
    ∧ (process_question (str "u")
        (some (process_answer (str "|<e>v</e>|")))).layout.length
        = (process_question (str "u")
            (some (process_answer (str "|<e>v</e>|")))).expressions.length + 1
    ∧ (process_answer (str "|<e>v</e>|")).layout.length
        = (process_answer (str "|<e>v</e>|")).expressions.length + 1 :=
  ⟨(c4_layout_invariants formMixed).1,
   ((c4_layout_invariants formMixed).2.2.2
      (process_question (str "u") (some (process_answer (str "|<e>v</e>|"))))
      (Or.inr (by decide))).1,
   ((c4_layout_invariants formMixed).2.2.2
      (process_question (str "u") (some (process_answer (str "|<e>v</e>|"))))
      (Or.inr (by decide))).2 (process_answer (str "|<e>v</e>|")) rfl⟩

/-- C5: the expression tokeniser is lossless and alternating — each parsed
expression's components alternate literal/variable fragments in original
order, and concatenating their source texts in order reproduces the
expression's source text exactly; replaying a parsed question's layout with
its expressions' reassembled sources (each re-wrapped in the `|<e>`/`</e>|`
delimiters that the layout split removed) reproduces the
declaration-stripped question body exactly. -/
theorem c5_tokenizer_lossless :
    (∀ (e : Str) (vs : List Var),
      alternates true ((process_expression e vs).2.expression) = true
      ∧ ((process_expression e vs).2.expression.map compSource).flatten = e)
    ∧ ∀ (body : Str) (ans : Option Answer),
      (interleave (process_question body ans).layout
        ((process_question body ans).expressions.map
          (fun ex => openE ++ (ex.expression.map compSource).flatten ++ closeE))).flatten
      = declStrip body :=
  ⟨fun e vs => ⟨process_expression_alternates e vs, process_expression_source e vs⟩,
   process_question_replay⟩

/-- C3 (amended): the answer-aware parser never raises an error and a
question marker pair not followed (after only whitespace) by a well-formed
answer block never produces a Question of its own — in particular, when no
answer marker occurs anywhere in the input, every question is silently
dropped and the whole input becomes the single layout piece.  However, the
dropped question's text is not always removed cleanly: the lazy body of the
combined pattern can absorb an unanswered question's markers and body into
the body of the next answered question, so an answered pair is not always
parsed with its body intact (second conjunct: in `formAbsorb` the only
parsed question has body `x</q>|y|<q>z` and answer `w`). -/
theorem c3_silent_omission :
    (∀ s : Str, ¬ List.IsInfix openA s →
      (process_with_answers s).questions = []
      ∧ (process_with_answers s).layout = [s])
    ∧ (process_with_answers formAbsorb).questions.map
        (fun q => (q.layout, q.answer.map Answer.layout))
      = [([str "x</q>|y|<q>z"], some [str "w"])] := by
  constructor
  · intro s hno
    unfold process_with_answers qaSplit
    rw [qaSplitF_of_no_answer_marker _ s hno]
    exact ⟨rfl, rfl⟩
  · decide

/-- C3 counterexample: in `formAbsorb` the question marker pair around `z` is
immediately followed by the well-formed answer block `|<a>w</a>|`, yet no
parsed question has the intact body `z` (a question with body `z` and no
expressions would have layout `["z"]`): the single parsed question's layout
is `["x</q>|y|<q>z"]`, so the answered pair was not parsed unaffected and the
unanswered pair's text was not dropped. -/
theorem c3_counterexample :
    (process_with_answers formAbsorb).questions.map Question.layout
      = [[str "x</q>|y|<q>z"]]
    ∧ [[str "x</q>|y|<q>z"]] ≠ [[str "z"]] := by decide

/-- Witness for C3: a template containing a question marker pair but no
answer marker parses — via the amended theorem — to zero questions with the
entire input as layout, and no error is raised. -/
theorem c3_witness :
    (process_with_answers formOrphan).questions = []
    ∧ (process_with_answers formOrphan).layout = [formOrphan] :=
  c3_silent_omission.1 formOrphan (by decide)

@[simp] theorem interleave_nil_right {α : Type} :
    ∀ xs : List α, interleave xs [] = xs
  | [] => rfl
  | _ :: _ => rfl

theorem interleave_flatten_split :
    ∀ (qs ls : List Str), qs.length < ls.length →
      (interleave ls qs).flatten
        = (List.zipWith (fun l r => l ++ r) (ls.take qs.length) qs).flatten
          ++ (ls.drop qs.length).flatten := by
  intro qs
  induction qs with
  | nil => intro ls _; simp
  | cons q qs ih =>
    intro ls h
    cases ls with
    | nil => simp at h
    | cons l ls =>
      simp only [interleave_cons_cons, List.flatten_cons, List.length_cons,
        List.take_succ_cons, List.zipWith_cons_cons, List.drop_succ_cons]
      rw [ih ls (by simpa using h)]
      simp [List.append_assoc]

theorem renderByIdx_length (cfg : Cfg) (doc : Document) :
    ∀ (ord : List Nat) (t : Tape) (i : Nat) p,
      renderByIdx cfg doc ord t i = some p →
      p.1.1.length = ord.length ∧ p.1.2.length = ord.length := by
  intro ord
  induction ord with
  | nil =>
    intro t i p h
    unfold renderByIdx at h
    simp only [Option.some.injEq] at h
    rw [← h]
    exact ⟨rfl, rfl⟩
  | cons j rest ih =>
    intro t i p h
    unfold renderByIdx at h
    split at h
    · exact absurd h (by simp)
    · split at h
      · exact absurd h (by simp)
      · rename_i q hq c a i1 hgen
        split at h
        · exact absurd h (by simp)
        · rename_i cs as' i2 hrec
          simp only [Option.some.injEq] at h
          rw [← h]
          have := ih t i1 ((cs, as'), i2) hrec
          simp only [List.length_cons]
          exact ⟨by simpa using this.1, by simpa using this.2⟩

/-- C2 (amended): when `k' = ord.length` questions are selected out of a
document with more layout segments, the assembled content and answers do
interleave the layout segments with the `k'` rendered strings by output
position — `layout[0] ++ rendered[0] ++ layout[1] ++ rendered[1] ++ …` — but
the layout segments at positions beyond `k'` are NOT dropped: they are all
appended, in order, after the last rendered string (`itertools::interleave`
yields the remainder of the longer iterator). -/
theorem c2_layout_appended : ∀ (cfg : Cfg) (doc : Document) (ord : List Nat)
    (t : Tape) (i : Nat) (test : Test) (i' : Nat),
    ord.length < doc.layout.length →
    gen_form cfg doc (some ord) t i = some (test, i') →
    ∃ qs ans : List Str,
      renderByIdx cfg doc ord t i = some ((qs, ans), i')
      ∧ qs.length = ord.length ∧ ans.length = ord.length
      ∧ test.content
          = (List.zipWith (fun l r => l ++ r) (doc.layout.take ord.length) qs).flatten
            ++ (doc.layout.drop ord.length).flatten
      ∧ test.answers
          = (List.zipWith (fun l r => l ++ r) (doc.layout.take ord.length) ans).flatten
            ++ (doc.layout.drop ord.length).flatten := by
  intro cfg doc ord t i test i' hlen h
  unfold gen_form at h
  split at h
  · exact absurd h (by simp)
  · rename_i qs as' i1 heq
    simp only [Option.some.injEq, Prod.mk.injEq] at h
    obtain ⟨ht, hi⟩ := h
    have hlens := renderByIdx_length cfg doc ord t i ((qs, as'), i1) heq
    refine ⟨qs, as', ?_, by simpa using hlens.1, by simpa using hlens.2, ?_, ?_⟩
    · rw [hi] at heq
      exact heq
    · rw [← ht]
      simp only
      rw [← (by simpa using hlens.1 : qs.length = ord.length)]
      exact interleave_flatten_split qs doc.layout
        (by rw [(by simpa using hlens.1 : qs.length = ord.length)]; exact hlen)
    · rw [← ht]
      simp only
      rw [← (by simpa using hlens.2 : as'.length = ord.length)]
      exact interleave_flatten_split as' doc.layout
        (by rw [(by simpa using hlens.2 : as'.length = ord.length)]; exact hlen)

/-- C2 counterexample: generating one test from the three-question `form2`
with `numQuestions = Some 1` keeps the layout pieces `Middle 1` and
`Middle 2` that the claim says are dropped: the content is
`1Middle 1Middle 2` (and the answers string likewise retains them). -/
theorem c2_counterexample :
    generate cfg0 (process form2) 1 (some 1) t0 0
      = some ([⟨str "1Middle 1Middle 2",
               str "No Answers ProvidedMiddle 1Middle 2"⟩], 1)
    ∧ List.IsInfix (str "Middle 2") (str "1Middle 1Middle 2") := by decide

/-- Witness for C2: the amended interleaving shape at a concrete generation
(`form2`, order `[0]`). -/
theorem c2_witness :
    ∃ qs ans : List Str,
      renderByIdx cfg0 (process form2) [0] t0 0 = some ((qs, ans), 0)
      ∧ qs.length = 1 ∧ ans.length = 1
      ∧ (⟨str "1Middle 1Middle 2",
          str "No Answers ProvidedMiddle 1Middle 2"⟩ : Test).content
          = (List.zipWith (fun l r => l ++ r)
              ((process form2).layout.take 1) qs).flatten
            ++ ((process form2).layout.drop 1).flatten
      ∧ (⟨str "1Middle 1Middle 2",
          str "No Answers ProvidedMiddle 1Middle 2"⟩ : Test).answers
          = (List.zipWith (fun l r => l ++ r)
              ((process form2).layout.take 1) ans).flatten
            ++ ((process form2).layout.drop 1).flatten := by
  have h := c2_layout_appended cfg0 (process form2) [0] t0 0
    ⟨str "1Middle 1Middle 2", str "No Answers ProvidedMiddle 1Middle 2"⟩ 0
    (by decide) (by decide)
  simpa using h

theorem c1_loop (cfg : Cfg) (t : Tape) :
    ∀ (n i : Nat),
      genLoopSome cfg (process form3) 1 [[0], [1], [2]] n t i
        = some (List.replicate n ⟨str "1", str "No Answers Provided"⟩, i + n) := by
  intro n
  induction n with
  | zero => intro i; simp [genLoopSome]
  | succ m ih =>
    intro i
    unfold genLoopSome
    have h1 : genRangeNat 1 t i = some (0, i + 1) := by
      simp [genRangeNat, Nat.mod_one]
    rw [h1]
    change (match genLoopSome cfg (process form3) 1 [[0], [1], [2]] m t (i + 1) with
      | none => none
      | some (ts, i3) =>
          some ((⟨str "1", str "No Answers Provided"⟩ : Test) :: ts, i3))
      = some (List.replicate (m + 1) ⟨str "1", str "No Answers Provided"⟩, i + (m + 1))
    rw [ih (i + 1)]
    rw [List.replicate_succ]
    simp only [Option.some.injEq, Prod.mk.injEq, true_and, and_true]
    omega

/-- C1: the claim fails on the code.  For `generate(doc, n, Some(k))` the
index into the permutation list is drawn from `0..min(k, totalQuestions)`
(the variable `num_permutations` of src line 225) instead of from the full
list of arrangements, so only the first `min(k, totalQuestions)`
arrangements are ever selectable.  Concretely, for the three-question
document `form3` with `k = 1` the arrangement set is `[[0], [1], [2]]`, yet
for every oracle, every random tape, every test count and every tape
position, every generated test uses arrangement `[0]` — its content is
always `"1"` — so the arrangements `[1]` and `[2]` are never selected and the
choice is not uniform over the arrangement set. -/
theorem c1_generate_only_first_arrangement :
    ∀ (cfg : Cfg) (t : Tape) (n i : Nat),
      permsK (List.range 3) 1 = [[0], [1], [2]]
      ∧ generate cfg (process form3) n (some 1) t i
          = some (List.replicate n ⟨str "1", str "No Answers Provided"⟩, i + n) := by
  intro cfg t n i
  refine ⟨by decide, ?_⟩
  unfold generate
  simp only
  have hq : (process form3).questions.length = 3 := by decide
  rw [hq]
  have hperm : permsK (List.range 3) (Nat.min 1 3) = [[0], [1], [2]] := by decide
  rw [hperm]
  exact c1_loop cfg t n i

theorem gqt_scope (cfg : Cfg) (q : Question) (t : Tape) (i : Nat)
    (r : (Str × Str) × Nat) (h : gen_question_text cfg q t i = some r) :
    ∃ sc, buildScope q.vars t i = some (sc, r.2)
      ∧ renderText cfg sc q.layout q.expressions = some r.1.1
      ∧ ∀ a, q.answer = some a →
          renderText cfg sc a.layout a.expressions = some r.1.2 := by
  unfold gen_question_text at h
  split at h
  · exact absurd h (by simp)
  · rename_i sc i1 hsc
    split at h
    · exact absurd h (by simp)
    · rename_i content hc
      split at h
      · exact absurd h (by simp)
      · rename_i ans ha
        simp only [Option.some.injEq] at h
        rw [← h]
        refine ⟨sc, hsc, hc, ?_⟩
        intro a haq
        rw [haq] at ha
        exact ha

theorem gqt_mirror (cfg : Cfg) (q : Question) (t : Tape) (i : Nat)
    (r : (Str × Str) × Nat)
    (hq : q.answer = some ⟨q.expressions, q.layout⟩)
    (h : gen_question_text cfg q t i = some r) : r.1.1 = r.1.2 := by
  obtain ⟨sc, _, hc, ha⟩ := gqt_scope cfg q t i r h
  have := ha ⟨q.expressions, q.layout⟩ hq
  simp only at this
  rw [hc] at this
  exact Option.some.inj this

theorem renderByIdx_mirror (cfg : Cfg) (doc : Document)
    (hdoc : ∀ q ∈ doc.questions, q.answer = some ⟨q.expressions, q.layout⟩) :
    ∀ (ord : List Nat) (t : Tape) (i : Nat) p,
      renderByIdx cfg doc ord t i = some p → p.1.1 = p.1.2 := by
  intro ord
  induction ord with
  | nil =>
    intro t i p h
    unfold renderByIdx at h
    simp only [Option.some.injEq] at h
    rw [← h]
  | cons j rest ih =>
    intro t i p h
    unfold renderByIdx at h
    split at h
    · exact absurd h (by simp)
    · rename_i q hq
      split at h
      · exact absurd h (by simp)
      · rename_i c a i1 hgen
        split at h
        · exact absurd h (by simp)
        · rename_i cs as' i2 hrec
          simp only [Option.some.injEq] at h
          rw [← h]
          have h1 : c = a :=
            gqt_mirror cfg q t i ((c, a), i1) (hdoc q (List.get?_mem hq)) hgen
          have h2 := ih t i1 ((cs, as'), i2) hrec
          simp only at h2 ⊢
          rw [h1, h2]

theorem renderAll_mirror (cfg : Cfg) :
    ∀ (qs : List Question),
      (∀ q ∈ qs, q.answer = some ⟨q.expressions, q.layout⟩) →
      ∀ (t : Tape) (i : Nat) p,
      renderAll cfg qs t i = some p → p.1.1 = p.1.2 := by
  intro qs
  induction qs with
  | nil =>
    intro _ t i p h
    unfold renderAll at h
    simp only [Option.some.injEq] at h
    rw [← h]
  | cons q rest ih =>
    intro hqs t i p h
    unfold renderAll at h
    split at h
    · exact absurd h (by simp)
    · rename_i c a i1 hgen
      split at h
      · exact absurd h (by simp)
      · rename_i cs as' i2 hrec
        simp only [Option.some.injEq] at h
        rw [← h]
        have h1 : c = a :=
          gqt_mirror cfg q t i ((c, a), i1) (hqs q (by simp)) hgen
        have h2 := ih (fun q' hq' => hqs q' (by simp [hq'])) t i1 ((cs, as'), i2) hrec
        simp only at h2 ⊢
        rw [h1, h2]

theorem gen_form_mirror (cfg : Cfg) (doc : Document)
    (hdoc : ∀ q ∈ doc.questions, q.answer = some ⟨q.expressions, q.layout⟩)
    (ord : Option (List Nat)) (t : Tape) (i : Nat) (test : Test) (i' : Nat)
    (h : gen_form cfg doc ord t i = some (test, i')) :
    test.content = test.answers := by
  unfold gen_form at h
  split at h
  · exact absurd h (by simp)
  · rename_i qs as' i1 heq
    simp only [Option.some.injEq, Prod.mk.injEq] at h
    obtain ⟨ht, _⟩ := h
    have hqa : qs = as' := by
      rcases ord with _ | ord
      · exact renderAll_mirror cfg doc.questions hdoc t i ((qs, as'), i1) heq
      · exact renderByIdx_mirror cfg doc hdoc ord t i ((qs, as'), i1) heq
    rw [← ht, hqa]

theorem genLoopSome_mirror (cfg : Cfg) (doc : Document)
    (hdoc : ∀ q ∈ doc.questions, q.answer = some ⟨q.expressions, q.layout⟩)
    (np : Nat) (perms : List (List Nat)) :
    ∀ (n : Nat) (t : Tape) (i : Nat) ts i',
      genLoopSome cfg doc np perms n t i = some (ts, i') →
      ∀ te ∈ ts, te.content = te.answers := by
  intro n
  induction n with
  | zero =>
    intro t i ts i' h te hte
    unfold genLoopSome at h
    simp only [Option.some.injEq, Prod.mk.injEq] at h
    rw [← h.1] at hte
    simp at hte
  | succ m ih =>
    intro t i ts i' h te hte
    unfold genLoopSome at h
    split at h
    · exact absurd h (by simp)
    · rename_i idx i1 _
      split at h
      · exact absurd h (by simp)
      · rename_i ord _
        split at h
        · exact absurd h (by simp)
        · rename_i test i2 hform
          split at h
          · exact absurd h (by simp)
          · rename_i ts2 i3 hrec
            simp only [Option.some.injEq, Prod.mk.injEq] at h
            rw [← h.1] at hte
            simp only [List.mem_cons] at hte
            rcases hte with rfl | hte
            · exact gen_form_mirror cfg doc hdoc (some ord) t i1 te i2 hform
            · exact ih t i2 ts2 i3 hrec te hte

theorem genLoopNone_mirror (cfg : Cfg) (doc : Document)
    (hdoc : ∀ q ∈ doc.questions, q.answer = some ⟨q.expressions, q.layout⟩) :
    ∀ (n : Nat) (t : Tape) (i : Nat) ts i',
      genLoopNone cfg doc n t i = some (ts, i') →
      ∀ te ∈ ts, te.content = te.answers := by
  intro n
  induction n with
  | zero =>
    intro t i ts i' h te hte
    unfold genLoopNone at h
    simp only [Option.some.injEq, Prod.mk.injEq] at h
    rw [← h.1] at hte
    simp at hte
  | succ m ih =>
    intro t i ts i' h te hte
    unfold genLoopNone at h
    split at h
    · exact absurd h (by simp)
    · rename_i test i1 hform
      split at h
      · exact absurd h (by simp)
      · rename_i ts2 i2 hrec
        simp only [Option.some.injEq, Prod.mk.injEq] at h
        rw [← h.1] at hte
        simp only [List.mem_cons] at hte
        rcases hte with rfl | hte
        · exact gen_form_mirror cfg doc hdoc none t i te i1 hform
        · exact ih t i1 ts2 i2 hrec te hte

/-- C7: in `gen_question_text` the answer, when present, is rendered against
the very same scope instance that was drawn for the question's content — no
second scope is drawn (the returned tape position is the one reached by the
single scope construction) — and consequently a question whose answer
consists of exactly the same expressions and layout renders identical
content and answer strings; in particular, for the parsed template
`|<q>|<e>a</e>|</q>||<a>|<e>a</e>|</a>|` every test of every `generate` call
(any requested counts, any oracle, any randomness) has
`content = answers`. -/
theorem c7_shared_scope :
    (∀ (cfg : Cfg) (q : Question) (t : Tape) (i : Nat) (r : (Str × Str) × Nat),
      gen_question_text cfg q t i = some r →
      ∃ sc, buildScope q.vars t i = some (sc, r.2)
        ∧ renderText cfg sc q.layout q.expressions = some r.1.1
        ∧ ∀ a, q.answer = some a →
            renderText cfg sc a.layout a.expressions = some r.1.2)
    ∧ (∀ (cfg : Cfg) (q : Question) (t : Tape) (i : Nat) (r : (Str × Str) × Nat),
        q.answer = some ⟨q.expressions, q.layout⟩ →
        gen_question_text cfg q t i = some r → r.1.1 = r.1.2)
    ∧ ∀ (cfg : Cfg) (nq : Option Nat) (t : Tape) (n i : Nat)
        (ts : List Test) (i' : Nat),
        generate cfg (process_with_answers formQA) n nq t i = some (ts, i') →
        ∀ te ∈ ts, te.content = te.answers := by
  refine ⟨gqt_scope, fun cfg q t i r hq h => gqt_mirror cfg q t i r hq h, ?_⟩
  intro cfg nq t n i ts i' h te hte
  have hdoc : ∀ q ∈ (process_with_answers formQA).questions,
      q.answer = some ⟨q.expressions, q.layout⟩ := by decide
  rcases nq with _ | k
  · exact genLoopNone_mirror cfg _ hdoc n t i ts i' h te hte
  · exact genLoopSome_mirror cfg _ hdoc _ _ n t i ts i' h te hte

/-- Witness for C7: with the evaluator oracle that renders every arithmetic
string as `"7"` and the all-zero tape, the single generated test is
`("7", "7")` and the theorem yields `content = answers` for it. -/
theorem c7_witness :
    generate cfg7 (process_with_answers formQA) 1 (some 1) t0 0
      = some ([⟨str "7", str "7"⟩], 2)
    ∧ (⟨str "7", str "7"⟩ : Test).content = (⟨str "7", str "7"⟩ : Test).answers := by
  refine ⟨by decide, ?_⟩
  exact c7_shared_scope.2.2 cfg7 (some 1) t0 1 0 [⟨str "7", str "7"⟩] 2
    (by decide) ⟨str "7", str "7"⟩ (by decide)

theorem varsInsert_mem_self (vs : List Var) (v : Var) : v ∈ varsInsert vs v := by
  unfold varsInsert
  split
  · assumption
  · simp

theorem varsInsert_mem_mono (vs : List Var) (v w : Var) (h : w ∈ vs) :
    w ∈ varsInsert vs v := by
  unfold varsInsert
  split
  · exact h
  · simp [h]

theorem process_expression_var_mem (e : Str) (vs : List Var) (nm : Str)
    (h : ExpComp.Var nm ∈ (process_expression e vs).2.expression) :
    nm ∈ (tokenize e).2 := by
  unfold process_expression at h
  simp only at h
  rcases mem_interleave _ _ _ h with h' | h'
  · simp only [List.mem_map] at h'
    obtain ⟨x, _, hx⟩ := h'
    exact absurd hx (by simp)
  · simp only [List.mem_map] at h'
    obtain ⟨x, hxm, hx⟩ := h'
    simp only [ExpComp.Var.injEq] at hx
    rw [← hx]
    exact hxm

theorem foldl_insert_mono :
    ∀ (ns : List Str) (vs : List Var) (w : Var), w ∈ vs →
      w ∈ ns.foldl (fun acc n => varsInsert acc (defaultVar n)) vs := by
  intro ns
  induction ns with
  | nil => intro vs w h; exact h
  | cons n ns ih =>
    intro vs w h
    exact ih _ w (varsInsert_mem_mono _ _ w h)

theorem foldl_insert_defaults_mem :
    ∀ (ns : List Str) (vs : List Var) (nm : Str), nm ∈ ns →
      defaultVar nm ∈ ns.foldl (fun acc n => varsInsert acc (defaultVar n)) vs := by
  intro ns
  induction ns with
  | nil => intro vs nm h; simp at h
  | cons n ns ih =>
    intro vs nm h
    simp only [List.mem_cons] at h
    rcases h with rfl | h
    · exact foldl_insert_mono ns _ _ (varsInsert_mem_self vs (defaultVar nm))
    · exact ih _ nm h

theorem processExprList_vars_mono :
    ∀ (bs : List Str) (vs : List Var) (w : Var), w ∈ vs →
      w ∈ (processExprList bs vs).1 := by
  intro bs
  induction bs with
  | nil => intro vs w h; exact h
  | cons b bs ih =>
    intro vs w h
    unfold processExprList
    exact ih _ w (foldl_insert_mono _ _ w h)

theorem processExprList_vars_mem :
    ∀ (bs : List Str) (vs : List Var) (e : Expression) (nm : Str),
      e ∈ (processExprList bs vs).2 → ExpComp.Var nm ∈ e.expression →
      defaultVar nm ∈ (processExprList bs vs).1 := by
  intro bs
  induction bs with
  | nil => intro vs e nm he _; simp [processExprList] at he
  | cons b bs ih =>
    intro vs e nm he hm
    unfold processExprList at he ⊢
    simp only [List.mem_cons] at he
    rcases he with rfl | he
    · have h1 := process_expression_var_mem b vs nm hm
      exact processExprList_vars_mono bs _ _ (foldl_insert_defaults_mem _ _ nm h1)
    · exact ih _ e nm he hm

theorem declFold_name_preserved :
    ∀ (ds : List VarDecl) (vs : List Var) (nm : Str),
      (∃ v ∈ vs, v.name = nm) →
      ∃ v ∈ ds.foldl
          (fun acc d => varsInsert (varsRemove acc (defaultVar d.name)) (declVar d))
          vs,
        v.name = nm := by
  intro ds
  induction ds with
  | nil => intro vs nm h; exact h
  | cons d ds ih =>
    intro vs nm h
    obtain ⟨v, hv, hname⟩ := h
    simp only [List.foldl_cons]
    apply ih
    by_cases hd : v = defaultVar d.name
    · refine ⟨declVar d, varsInsert_mem_self _ _, ?_⟩
      rw [← hname, hd]
      rfl
    · refine ⟨v, varsInsert_mem_mono _ _ v ?_, hname⟩
      unfold varsRemove
      rw [List.mem_filter]
      exact ⟨hv, by simp [hd]⟩

theorem process_question_var_names (body : Str) (ans : Option Answer)
    (e : Expression) (nm : Str)
    (he : e ∈ (process_question body ans).expressions)
    (hm : ExpComp.Var nm ∈ e.expression) :
    ∃ v ∈ (process_question body ans).vars, v.name = nm := by
  unfold process_question at he ⊢
  simp only at he ⊢
  unfold get_content at he ⊢
  simp only at he ⊢
  exact declFold_name_preserved _ _ nm
    ⟨defaultVar nm, processExprList_vars_mem _ _ e nm he hm, rfl⟩

theorem find?_append_right {α : Type} (p : α → Bool) :
    ∀ (l1 l2 : List α), (∀ x ∈ l1, p x = false) →
      (l1 ++ l2).find? p = l2.find? p := by
  intro l1
  induction l1 with
  | nil => intro l2 _; simp
  | cons a l1 ih =>
    intro l2 h
    rw [List.cons_append, List.find?_cons_of_neg _ (by simp [h a (by simp)])]
    exact ih l2 (fun x hx => h x (by simp [hx]))

theorem scopeGet_insert_self (sc : Scope) (k : Str) (v : Num) :
    scopeGet (scopeInsert sc k v) k = some v := by
  unfold scopeGet scopeInsert
  rw [find?_append_right]
  · simp [List.find?]
  · intro x hx
    have h1 := List.of_mem_filter hx
    simp only [decide_eq_true_eq] at h1
    simp [h1]

theorem scopeGet_insert_preserve (sc : Scope) (k : Str) (v : Num) (k' : Str)
    (h : (scopeGet sc k').isSome) :
    (scopeGet (scopeInsert sc k v) k').isSome := by
  by_cases hk : k' = k
  · rw [hk, scopeGet_insert_self]
    simp
  · unfold scopeGet at h ⊢
    unfold scopeInsert
    simp only [Option.isSome_map'] at h ⊢
    rw [List.find?_isSome] at h ⊢
    obtain ⟨x, hx, hpx⟩ := h
    refine ⟨x, List.mem_append_left _ ?_, hpx⟩
    rw [List.mem_filter]
    refine ⟨hx, ?_⟩
    simp only [beq_iff_eq] at hpx
    simp [hpx, hk]

theorem buildScopeAux_keys :
    ∀ (vars : List Var) (sc : Scope) (t : Tape) (i : Nat) p,
      buildScopeAux sc vars t i = some p →
      ∀ nm, ((∃ v ∈ vars, v.name = nm) ∨ (scopeGet sc nm).isSome) →
        (scopeGet p.1 nm).isSome := by
  intro vars
  induction vars with
  | nil =>
    intro sc t i p h nm hd
    unfold buildScopeAux at h
    simp only [Option.some.injEq] at h
    rw [← h]
    rcases hd with hd | hd
    · simp at hd
    · exact hd
  | cons v vs ih =>
    intro sc t i p h nm hd
    unfold buildScopeAux at h
    split at h
    · exact absurd h (by simp)
    · rename_i n i1 hdraw
      rcases hd with hd | hd
      · simp only [List.mem_cons] at hd
        obtain ⟨w, hw | hw, hwn⟩ := hd
        · refine ih _ t i1 p h nm (Or.inr ?_)
          rw [← hwn, hw]
          rw [scopeGet_insert_self]
          simp
        · exact ih _ t i1 p h nm (Or.inl ⟨w, hw, hwn⟩)
      · exact ih _ t i1 p h nm
          (Or.inr (scopeGet_insert_preserve sc v.name n nm hd))

/-- C10 (amended): in every document produced by `process` or
`process_with_answers`, every variable name referenced by an
`ExpComp::Var` component of a QUESTION's expression has a corresponding
`Var` entry in that question's vars collection (the tokenizer registers a
default and declarations replace but never remove a name), so the scope
lookup for the question's own content never fails.  The original claim is
wrong about answers: `process_answer` discards the variable set its
expressions register, so an answer-side lookup can fail (see the
counterexample). -/
theorem c10_question_lookup :
    ∀ (s : Str) (q : Question),
      (q ∈ (process s).questions ∨ q ∈ (process_with_answers s).questions) →
      ∀ e ∈ q.expressions, ∀ nm, ExpComp.Var nm ∈ e.expression →
        (∃ v ∈ q.vars, v.name = nm)
        ∧ ∀ (t : Tape) (i : Nat) p, buildScope q.vars t i = some p →
            (scopeGet p.1 nm).isSome := by
  intro s q hq e he nm hm
  have hstruct : ∃ b ans, q = process_question b ans := by
    rcases hq with hq | hq
    · unfold process at hq
      simp only [List.mem_map] at hq
      obtain ⟨b, _, hb⟩ := hq
      exact ⟨b, none, hb.symm⟩
    · unfold process_with_answers at hq
      simp only [List.mem_map] at hq
      obtain ⟨pp, _, hb⟩ := hq
      exact ⟨pp.1, some (process_answer pp.2.2), hb.symm⟩
  obtain ⟨b, ans, rfl⟩ := hstruct
  have hv := process_question_var_names b ans e nm he hm
  refine ⟨hv, ?_⟩
  intro t i p hp
  exact buildScopeAux_keys _ [] t i p hp nm (Or.inl hv)

/-- C10 counterexample: in `|<q>q</q>||<a>|<e>b</e>|</a>|` the answer
references `b`, which the question body never mentions; the answer's own
registrations are discarded by `process_answer`, so the scope lookup fails
and rendering panics — `gen_question_text` returns `none` even with an
evaluator oracle that always succeeds, refuting "the scope lookup performed
during rendering never fails for a parsed document". -/
theorem c10_counterexample :
    (process_with_answers formAnswerVar).questions.map
      (fun q => gen_question_text cfg7 q t0 0) = [none] := by decide

/-- Witness for C10: the variable `x` used in the expression of
`formVarUse`'s question has a `Var` entry and its scope lookup succeeds. -/
theorem c10_witness :
    (∃ v ∈ (process_question (str "w1|<e>x+y</e>|w2") none).vars,
      v.name = str "x")
    ∧ (scopeGet [(str "x", ⟨0, none⟩), (str "y", ⟨0, none⟩)]
        (str "x")).isSome := by
  have h := c10_question_lookup formVarUse
    (process_question (str "w1|<e>x+y</e>|w2") none) (Or.inl (by decide))
    (process_expression (str "x+y") []).2 (by decide) (str "x") (by decide)
  exact ⟨h.1, h.2 t0 0 ([(str "x", ⟨0, none⟩), (str "y", ⟨0, none⟩)], 2)
    (by decide)⟩

theorem picks_length {α : Type} : ∀ xs : List α, (picks xs).length = xs.length := by
  intro xs
  induction xs with
  | nil => rfl
  | cons x xs ih => simp [picks, ih]

theorem picks_mem {α : Type} :
    ∀ (xs : List α) (p : α × List α), p ∈ picks xs →
      p.1 ∈ xs ∧ ∀ a ∈ p.2, a ∈ xs := by
  intro xs
  induction xs with
  | nil => intro p h; simp [picks] at h
  | cons x xs ih =>
    intro p h
    simp only [picks, List.mem_cons, List.mem_map] at h
    rcases h with rfl | ⟨q, hq, hpq⟩
    · exact ⟨by simp, fun a ha => by simp [ha]⟩
    · obtain ⟨h1, h2⟩ := ih q hq
      rw [← hpq]
      refine ⟨by simp [h1], ?_⟩
      intro a ha
      simp only at ha
      rcases List.mem_cons.mp ha with rfl | ha
      · simp
      · simp [h2 a ha]

theorem picks_rem_length {α : Type} :
    ∀ (xs : List α) (p : α × List α), p ∈ picks xs →
      p.2.length + 1 = xs.length := by
  intro xs
  induction xs with
  | nil => intro p h; simp [picks] at h
  | cons x xs ih =>
    intro p h
    simp only [picks, List.mem_cons, List.mem_map] at h
    rcases h with rfl | ⟨q, hq, hpq⟩
    · simp
    · have := ih q hq
      rw [← hpq]
      simp only [List.length_cons]
      omega

theorem permsK_ne_nil {α : Type} :
    ∀ (k : Nat) (xs : List α), k ≤ xs.length → permsK xs k ≠ [] := by
  intro k
  induction k with
  | zero => intro xs _; simp [permsK]
  | succ m ih =>
    intro xs h
    cases xs with
    | nil => simp at h
    | cons x xs =>
      unfold permsK
      intro hc
      rw [List.flatten_eq_nil_iff] at hc
      have h1 : (permsK xs m).map (fun l => x :: l) = [] := by
        apply hc
        rw [List.mem_map]
        exact ⟨(x, xs), by simp [picks], rfl⟩
      rw [List.map_eq_nil_iff] at h1
      exact ih xs (by simpa using h) h1

theorem length_le_sum_of_pos :
    ∀ l : List Nat, (∀ x ∈ l, 1 ≤ x) → l.length ≤ l.sum := by
  intro l
  induction l with
  | nil => intro _; simp
  | cons x l ih =>
    intro h
    simp only [List.length_cons, List.sum_cons]
    have h1 := ih (fun y hy => h y (by simp [hy]))
    have h2 := h x (by simp)
    omega

theorem permsK_length_ge {α : Type} :
    ∀ (k : Nat) (xs : List α), 1 ≤ k → k ≤ xs.length →
      xs.length ≤ (permsK xs k).length := by
  intro k xs hk hkx
  cases k with
  | zero => omega
  | succ m =>
    unfold permsK
    rw [List.length_flatten, List.map_map]
    have hform : ∀ x ∈ (picks xs).map
        (List.length ∘ fun p : α × List α => (permsK p.2 m).map (fun l => p.1 :: l)),
        1 ≤ x := by
      intro x hx
      rw [List.mem_map] at hx
      obtain ⟨p, hp, hpx⟩ := hx
      rw [← hpx]
      simp only [Function.comp_apply, List.length_map]
      have hne : permsK p.2 m ≠ [] := by
        apply permsK_ne_nil
        have := picks_rem_length xs p hp
        omega
      have := List.length_pos.mpr hne
      omega
    have h1 := length_le_sum_of_pos _ hform
    rw [List.length_map, picks_length] at h1
    exact h1

theorem permsK_mem_entries {α : Type} :
    ∀ (k : Nat) (xs : List α) (l : List α), l ∈ permsK xs k → ∀ a ∈ l, a ∈ xs := by
  intro k
  induction k with
  | zero =>
    intro xs l h a ha
    simp only [permsK, List.mem_singleton] at h
    rw [h] at ha
    simp at ha
  | succ m ih =>
    intro xs l h a ha
    unfold permsK at h
    rw [List.mem_flatten] at h
    obtain ⟨L, hL, hlL⟩ := h
    rw [List.mem_map] at hL
    obtain ⟨p, hp, hpL⟩ := hL
    rw [← hpL, List.mem_map] at hlL
    obtain ⟨l', hl', hll⟩ := hlL
    rw [← hll] at ha
    rcases List.mem_cons.mp ha with rfl | ha
    · exact (picks_mem xs p hp).1
    · exact (picks_mem xs p hp).2 a (ih p.2 l' hl' a ha)

theorem renderByIdx_ok (cfg : Cfg) (doc : Document) (t : Tape)
    (hren : RenderOK cfg doc t) :
    ∀ (ord : List Nat), (∀ j ∈ ord, j < doc.questions.length) →
      ∀ i, ∃ p, renderByIdx cfg doc ord t i = some p := by
  intro ord
  induction ord with
  | nil => intro _ i; exact ⟨(([], []), i), rfl⟩
  | cons j rest ih =>
    intro hb i
    obtain ⟨q, hq⟩ : ∃ q, doc.questions.get? j = some q := by
      cases hg : doc.questions.get? j with
      | none =>
        rw [List.get?_eq_none] at hg
        have := hb j (by simp)
        omega
      | some q => exact ⟨q, rfl⟩
    obtain ⟨⟨⟨c, a⟩, i1⟩, hgen⟩ := hren q (List.get?_mem hq) i
    obtain ⟨⟨⟨cs, as'⟩, i2⟩, hrec⟩ := ih (fun j' hj' => hb j' (by simp [hj'])) i1
    refine ⟨((c :: cs, a :: as'), i2), ?_⟩
    unfold renderByIdx
    simp only [hq, hgen, hrec]

theorem renderAll_ok (cfg : Cfg) (t : Tape) :
    ∀ (qs : List Question),
      (∀ q ∈ qs, ∀ j : Nat, ∃ r, gen_question_text cfg q t j = some r) →
      ∀ i, ∃ p, renderAll cfg qs t i = some p := by
  intro qs
  induction qs with
  | nil => intro _ i; exact ⟨(([], []), i), rfl⟩
  | cons q rest ih =>
    intro hren i
    obtain ⟨⟨⟨c, a⟩, i1⟩, hgen⟩ := hren q (by simp) i
    obtain ⟨⟨⟨cs, as'⟩, i2⟩, hrec⟩ := ih (fun q' hq' => hren q' (by simp [hq'])) i1
    refine ⟨((c :: cs, a :: as'), i2), ?_⟩
    unfold renderAll
    simp only [hgen, hrec]

theorem gen_form_some_ok (cfg : Cfg) (doc : Document) (t : Tape)
    (hren : RenderOK cfg doc t) (ord : List Nat)
    (hb : ∀ j ∈ ord, j < doc.questions.length) (i : Nat) :
    ∃ test i', gen_form cfg doc (some ord) t i = some (test, i') := by
  obtain ⟨⟨⟨cs, as'⟩, i1⟩, hp⟩ := renderByIdx_ok cfg doc t hren ord hb i
  refine ⟨⟨(interleave doc.layout cs).flatten,
           (interleave doc.layout as').flatten⟩, i1, ?_⟩
  unfold gen_form
  simp only [hp]

theorem gen_form_none_ok (cfg : Cfg) (doc : Document) (t : Tape)
    (hren : RenderOK cfg doc t) (i : Nat) :
    ∃ test i', gen_form cfg doc none t i = some (test, i') := by
  obtain ⟨⟨⟨cs, as'⟩, i1⟩, hp⟩ := renderAll_ok cfg t doc.questions hren i
  refine ⟨⟨(interleave doc.layout cs).flatten,
           (interleave doc.layout as').flatten⟩, i1, ?_⟩
  unfold gen_form
  simp only [hp]

theorem genLoopSome_ok (cfg : Cfg) (doc : Document) (t : Tape)
    (hren : RenderOK cfg doc t) (np : Nat) (perms : List (List Nat))
    (hnp : 0 < np) (hlen : np ≤ perms.length)
    (hbound : ∀ l ∈ perms, ∀ j ∈ l, j < doc.questions.length) :
    ∀ (n i : Nat), ∃ ts i',
      genLoopSome cfg doc np perms n t i = some (ts, i') ∧ ts.length = n := by
  intro n
  induction n with
  | zero => intro i; exact ⟨[], i, rfl, rfl⟩
  | succ m ih =>
    intro i
    have h1 : genRangeNat np t i = some (t i % np, i + 1) := by
      unfold genRangeNat
      rw [if_pos hnp]
    obtain ⟨ord, hord⟩ : ∃ ord, perms.get? (t i % np) = some ord := by
      cases hg : perms.get? (t i % np) with
      | none =>
        rw [List.get?_eq_none] at hg
        have := Nat.mod_lt (t i) hnp
        omega
      | some ord => exact ⟨ord, rfl⟩
    obtain ⟨test, i2, hform⟩ := gen_form_some_ok cfg doc t hren ord
      (hbound ord (List.get?_mem hord)) (i + 1)
    obtain ⟨ts, i3, hrec, hlen3⟩ := ih i2
    refine ⟨test :: ts, i3, ?_, by simp [hlen3]⟩
    unfold genLoopSome
    simp only [h1, hord, hform, hrec]

theorem genLoopNone_ok (cfg : Cfg) (doc : Document) (t : Tape)
    (hren : RenderOK cfg doc t) :
    ∀ (n i : Nat), ∃ ts i',
      genLoopNone cfg doc n t i = some (ts, i') ∧ ts.length = n := by
  intro n
  induction n with
  | zero => intro i; exact ⟨[], i, rfl, rfl⟩
  | succ m ih =>
    intro i
    obtain ⟨test, i1, hform⟩ := gen_form_none_ok cfg doc t hren i
    obtain ⟨ts, i2, hrec, hlen2⟩ := ih i1
    refine ⟨test :: ts, i2, ?_, by simp [hlen2]⟩
    unfold genLoopNone
    simp only [hform, hrec]

/-- C9 (amended): `generate` returns exactly `numResults` tests whenever
every question of the document renders successfully and either
`numQuestions` is absent, or no test is requested, or
`min(numQuestions, totalQuestions) ≥ 1`.  The claim's remaining cases are
false: with `numResults ≥ 1` and `min(numQuestions, totalQuestions) = 0` —
in particular for `numQuestions = Some 0`, and for any present
`numQuestions` when the document has no questions — the permutation-index
draw `gen_range(0..0)` is over an empty range and the call panics (see the
counterexample). -/
theorem c9_generate_total :
    ∀ (cfg : Cfg) (doc : Document) (t : Tape) (n : Nat) (nq : Option Nat)
      (i : Nat),
      RenderOK cfg doc t →
      (nq = none ∨ n = 0
        ∨ ∃ k, nq = some k ∧ 1 ≤ Nat.min k doc.questions.length) →
      ∃ ts i', generate cfg doc n nq t i = some (ts, i') ∧ ts.length = n := by
  intro cfg doc t n nq i hren hcase
  rcases hcase with rfl | rfl | ⟨k, rfl, hk⟩
  · obtain ⟨ts, i', h1, h2⟩ := genLoopNone_ok cfg doc t hren n i
    exact ⟨ts, i', h1, h2⟩
  · rcases nq with _ | k
    · exact ⟨[], i, rfl, rfl⟩
    · exact ⟨[], i, rfl, rfl⟩
  · have h2 : Nat.min k doc.questions.length ≤ doc.questions.length :=
      Nat.min_le_right k doc.questions.length
    have hlen : doc.questions.length
        ≤ (permsK (List.range doc.questions.length)
            (Nat.min k doc.questions.length)).length := by
      have := permsK_length_ge (Nat.min k doc.questions.length)
        (List.range doc.questions.length) hk (by simp [h2])
      simpa using this
    have hbound : ∀ l ∈ permsK (List.range doc.questions.length)
        (Nat.min k doc.questions.length), ∀ j ∈ l, j < doc.questions.length := by
      intro l hl j hj
      have := permsK_mem_entries _ _ l hl j hj
      simpa using this
    obtain ⟨ts, i', h1, hl⟩ := genLoopSome_ok cfg doc t hren
      (Nat.min k doc.questions.length) _ (by omega) (by omega) hbound n i
    exact ⟨ts, i', h1, hl⟩

/-- C9 counterexample: generating one test with `numQuestions = Some 0` on a
one-question document, or with `numQuestions = Some 3` on a zero-question
document, panics (`gen_range(0..0)` on an empty range, modelled as `none`) —
`generate` is not defined for every `numResults ≥ 0` and `numQuestions ≥ 0`. -/
theorem c9_counterexample :
    generate cfg0 (process formOne) 1 (some 0) t0 0 = none
    ∧ generate cfg0 (process (str "")) 1 (some 3) t0 0 = none := by decide

/-- Witness for C9: the amended totality at a one-question document with
`numResults = 2` and `numQuestions = Some 1`. -/
theorem c9_witness :
    ∃ ts i', generate cfg0 (process formOne) 2 (some 1) t0 0 = some (ts, i')
      ∧ ts.length = 2 := by
  apply c9_generate_total cfg0 (process formOne) t0 2 (some 1) 0
  · intro q hq j
    have he : (process formOne).questions = [process_question (str "1") none] := by
      decide
    rw [he, List.mem_singleton] at hq
    subst hq
    exact ⟨((str "1", str "No Answers Provided"), j), rfl⟩
  · right; right
    exact ⟨1, rfl, by decide⟩

theorem varsRemove_sublist (vs : List Var) (v : Var) :
    (varsRemove vs v).Sublist vs :=
  List.filter_sublist vs

theorem varsInsert_nodup (vs : List Var) (v : Var) (h : vs.Nodup) :
    (varsInsert vs v).Nodup := by
  unfold varsInsert
  split
  · exact h
  · rename_i hne
    rw [List.nodup_append]
    refine ⟨h, List.nodup_singleton v, ?_⟩
    intro a ha hav
    rw [List.mem_singleton] at hav
    subst hav
    exact hne ha

theorem foldl_defaults_shape :
    ∀ (ns : List Str) (vs : List Var),
      (∀ w ∈ vs, w = defaultVar w.name) →
      ∀ w ∈ ns.foldl (fun acc n => varsInsert acc (defaultVar n)) vs,
        w = defaultVar w.name := by
  intro ns
  induction ns with
  | nil => intro vs h; exact h
  | cons n ns ih =>
    intro vs h
    apply ih
    intro w hw
    change w ∈ varsInsert vs (defaultVar n) at hw
    unfold varsInsert at hw
    split at hw
    · exact h w hw
    · rw [List.mem_append] at hw
      rcases hw with hw | hw
      · exact h w hw
      · rw [List.mem_singleton] at hw
        subst hw
        rfl

theorem foldl_defaults_nodup :
    ∀ (ns : List Str) (vs : List Var), vs.Nodup →
      (ns.foldl (fun acc n => varsInsert acc (defaultVar n)) vs).Nodup := by
  intro ns
  induction ns with
  | nil => intro vs h; exact h
  | cons n ns ih => intro vs h; exact ih _ (varsInsert_nodup _ _ h)

theorem processExprList_vars_shape :
    ∀ (bs : List Str) (vs : List Var),
      (∀ w ∈ vs, w = defaultVar w.name) →
      ∀ w ∈ (processExprList bs vs).1, w = defaultVar w.name := by
  intro bs
  induction bs with
  | nil => intro vs h; exact h
  | cons b bs ih =>
    intro vs h
    unfold processExprList
    apply ih
    unfold process_expression
    simp only
    exact foldl_defaults_shape _ _ h

theorem processExprList_vars_nodup :
    ∀ (bs : List Str) (vs : List Var), vs.Nodup →
      (processExprList bs vs).1.Nodup := by
  intro bs
  induction bs with
  | nil => intro vs h; exact h
  | cons b bs ih =>
    intro vs h
    unfold processExprList
    apply ih
    unfold process_expression
    simp only
    exact foldl_defaults_nodup _ _ h

theorem get_content_vars_shape (text : Str) :
    ∀ w ∈ (get_content text).vars, w = defaultVar w.name := by
  unfold get_content
  simp only
  exact processExprList_vars_shape _ [] (by simp)

theorem get_content_names_nodup (text : Str) :
    ((get_content text).vars.map Var.name).Nodup := by
  apply List.Nodup.map_on
  · intro x hx y hy hxy
    calc x = defaultVar x.name := get_content_vars_shape text x hx
      _ = defaultVar y.name := by rw [hxy]
      _ = y := (get_content_vars_shape text y hy).symm
  · unfold get_content
    simp only
    exact processExprList_vars_nodup _ [] List.nodup_nil

theorem declFold_preserve :
    ∀ (ds : List VarDecl) (vs : List Var) (w : Var),
      w ∈ vs → (∀ d ∈ ds, w.name ≠ VarDecl.name d) →
      w ∈ ds.foldl
        (fun acc d => varsInsert (varsRemove acc (defaultVar d.name)) (declVar d))
        vs := by
  intro ds
  induction ds with
  | nil => intro vs w h _; exact h
  | cons d ds ih =>
    intro vs w h hn
    simp only [List.foldl_cons]
    apply ih
    · apply varsInsert_mem_mono
      unfold varsRemove
      rw [List.mem_filter]
      have hne : w ≠ defaultVar d.name := by
        intro hc
        exact hn d (by simp) (by rw [hc]; rfl)
      exact ⟨h, by simp [hne]⟩
    · intro d' hd'
      exact hn d' (by simp [hd'])

theorem declFold_spec :
    ∀ (ds : List VarDecl) (vs : List Var),
      (vs.map Var.name).Nodup →
      (ds.map VarDecl.name).Nodup →
      (∀ d ∈ ds, ∀ v ∈ vs, v.name = VarDecl.name d → v = defaultVar d.name) →
      ((ds.foldl
          (fun acc d => varsInsert (varsRemove acc (defaultVar d.name)) (declVar d))
          vs).map Var.name).Nodup
      ∧ ∀ d ∈ ds,
          declVar d ∈ ds.foldl
            (fun acc d => varsInsert (varsRemove acc (defaultVar d.name)) (declVar d))
            vs
          ∧ ∀ v ∈ ds.foldl
              (fun acc d =>
                varsInsert (varsRemove acc (defaultVar d.name)) (declVar d))
              vs,
            v.name = VarDecl.name d → v = declVar d := by
  intro ds
  induction ds with
  | nil => intro vs h _ _; exact ⟨h, by simp⟩
  | cons d ds ih =>
    intro vs hnv hnd hdef
    simp only [List.map_cons, List.nodup_cons] at hnd
    obtain ⟨hd_notin, hnd'⟩ := hnd
    have hF1 : ∀ v ∈ varsRemove vs (defaultVar d.name), v.name ≠ VarDecl.name d := by
      intro v hv hc
      have hv' : v ∈ vs := (varsRemove_sublist vs (defaultVar d.name)).subset hv
      have hvd := hdef d (by simp) v hv' hc
      have := List.of_mem_filter hv
      simp only [decide_eq_true_eq] at this
      exact this hvd
    have hnotmem : declVar d ∉ varsRemove vs (defaultVar d.name) :=
      fun hc => hF1 (declVar d) hc rfl
    have hvs' : varsInsert (varsRemove vs (defaultVar d.name)) (declVar d)
        = varsRemove vs (defaultVar d.name) ++ [declVar d] := by
      unfold varsInsert
      rw [if_neg hnotmem]
    have hremnames : ((varsRemove vs (defaultVar d.name)).map Var.name).Nodup :=
      hnv.sublist ((varsRemove_sublist vs (defaultVar d.name)).map Var.name)
    have hvs'names :
        ((varsInsert (varsRemove vs (defaultVar d.name)) (declVar d)).map
          Var.name).Nodup := by
      rw [hvs', List.map_append, List.nodup_append]
      refine ⟨hremnames, by simp, ?_⟩
      intro a ha hb
      simp only [List.map_cons, List.map_nil, List.mem_singleton] at hb
      subst hb
      rw [List.mem_map] at ha
      obtain ⟨v, hv, hvn⟩ := ha
      exact hF1 v hv hvn
    have hdef' : ∀ d' ∈ ds,
        ∀ v ∈ varsInsert (varsRemove vs (defaultVar d.name)) (declVar d),
          v.name = VarDecl.name d' → v = defaultVar d'.name := by
      intro d' hd' v hv hvn
      rw [hvs', List.mem_append] at hv
      rcases hv with hv | hv
      · exact hdef d' (by simp [hd']) v
          ((varsRemove_sublist vs (defaultVar d.name)).subset hv) hvn
      · rw [List.mem_singleton] at hv
        subst hv
        exact absurd (List.mem_map.mpr ⟨d', hd', hvn.symm⟩) hd_notin
    obtain ⟨ihn, ihd⟩ := ih
      (varsInsert (varsRemove vs (defaultVar d.name)) (declVar d))
      hvs'names hnd' hdef'
    refine ⟨by simpa using ihn, ?_⟩
    intro d' hd'
    rcases List.mem_cons.mp hd' with rfl | hd'
    · have hmem : declVar d' ∈ ds.foldl
          (fun acc dd => varsInsert (varsRemove acc (defaultVar dd.name)) (declVar dd))
          (varsInsert (varsRemove vs (defaultVar d'.name)) (declVar d')) := by
        apply declFold_preserve
        · exact varsInsert_mem_self _ _
        · intro d'' hd'' hc
          exact hd_notin (List.mem_map.mpr ⟨d'', hd'', hc.symm⟩)
      refine ⟨by simpa using hmem, ?_⟩
      intro v hv hvn
      exact List.inj_on_of_nodup_map ihn (by simpa using hv)
        (by simpa using hmem) hvn
    · have := ihd d' hd'
      refine ⟨by simpa using this.1, ?_⟩
      intro v hv hvn
      exact this.2 v (by simpa using hv) hvn

/-- C6 (amended): in every parsed question whose explicit declarations carry
pairwise-distinct names, variable names are unique and every explicit
declaration supersedes the default `Var` inferred from use inside an
expression, regardless of which was recorded first: the declared `Var` is in
the collection and any entry with that name equals it.  The claim's
last-declaration-wins sentence is false: because the `HashSet<Var>` compares
whole records, declaring the same name twice with different content leaves
BOTH records in the collection (see the counterexample) — no single
declaration wins. -/
theorem c6_vars_unique :
    ∀ (body : Str) (ans : Option Answer),
      ((declSplit body).1.map VarDecl.name).Nodup →
      ((process_question body ans).vars.map Var.name).Nodup
      ∧ ∀ d ∈ (declSplit body).1,
          declVar d ∈ (process_question body ans).vars
          ∧ ∀ v ∈ (process_question body ans).vars,
              v.name = VarDecl.name d → v = declVar d := by
  intro body ans hnd
  unfold process_question
  simp only
  apply declFold_spec (declSplit body).1 (get_content (declStrip body)).vars
    (get_content_names_nodup _) hnd
  intro d _ v hv hvn
  rw [get_content_vars_shape _ v hv, hvn]

/-- C6 counterexample: the question
`|<q>|<v>a: int = [1,2]</v>||<v>a: int = [3,4]</v>||<e>a</e>|</q>|` declares
`a` twice with different bounds; after parsing, the question's variable
collection contains TWO entries named `a` — names are not unique and no
"last declaration wins". -/
theorem c6_counterexample :
    (process formDupDecl).questions.map (fun q => q.vars.map Var.name)
      = [[str "a", str "a"]]
    ∧ ¬ ([str "a", str "a"] : List Str).Nodup := by decide

/-- Witness for C6: a question body with one declaration of `a` and an
expression using `a` and `b`; the theorem yields unique names and the
presence of the declared record. -/
theorem c6_witness :
    ((process_question formDeclBody none).vars.map Var.name).Nodup
    ∧ declVar ⟨str "a", str "real", str "1", str "5"⟩
        ∈ (process_question formDeclBody none).vars := by
  have h := c6_vars_unique formDeclBody none (by decide)
  exact ⟨h.1,
    (h.2 ⟨str "a", str "real", str "1", str "5"⟩ (by decide)).1⟩

end Morphius

